import Mathlib

/-!
Shallow embedding of the gomagiclink core (magiclink.go) in Lean 4.

Modelling conventions:
* Go strings and byte slices are modelled as `List Nat` of byte values (< 256).
* Unix times and `time.Duration` values are modelled as `Int`; durations are
  taken in whole seconds, so `time.Now().Add(d).Unix()` becomes `now + d`.
* `crypto/rand` salt generation and `ulid.Make()` are modelled by passing the
  generated value as an explicit argument.
* `crypto/sha256` and `crypto/hmac` are external libraries; they are modelled
  by a `HashModel` record of abstract functions, so every theorem is stated
  for an arbitrary (or suitably constrained) hash model.
* Go's multiple-return `(value, error)` convention for the user store is
  modelled with `Except`.
* Machine integers: Go `int` is 64-bit; the token timestamps handled by the
  claims stay far below 2^63, so `Int` without wrap-around is used.
-/

set_option maxRecDepth 100000

namespace GoMagicLink

/-- Byte strings: Go `[]byte` and `string` values, one `Nat` per byte. -/
abbrev Bytes := List Nat

/-! ## ASCII helpers (modelling `strings.ToLower` / `strings.TrimSpace` on ASCII input) -/

/-- ASCII whitespace recognised by `unicode.IsSpace` within the ASCII range:
space, tab, newline, vertical tab, form feed, carriage return. -/
def isAsciiSpace (b : Nat) : Bool := b == 32 || b == 9 || b == 10 || b == 11 || b == 12 || b == 13

/-- ASCII lower-casing of one byte, as `strings.ToLower` acts on ASCII. -/
def toLowerByte (b : Nat) : Nat := if 65 ≤ b ∧ b ≤ 90 then b + 32 else b

/-- ASCII `strings.TrimSpace`: drop whitespace from both ends. -/
def trimSpace (s : Bytes) : Bytes :=
  ((s.dropWhile isAsciiSpace).reverse.dropWhile isAsciiSpace).reverse

/-- `NormalizeEmail` (package gomagiclink):
`strings.ToLower(strings.TrimSpace(email))` — trim surrounding whitespace
first, then lower-case each byte (ASCII range). -/
def NormalizeEmail (s : Bytes) : Bytes := (trimSpace s).map toLowerByte

/-! ## Decimal integers (`strconv.Itoa` / `strconv.Atoi`) -/

/-- Decimal digits of a natural number, most significant first, with explicit
fuel (the fuel is always instantiated with `n + 1`, which is plenty since the
argument is divided by 10 at each step). -/
def natDigitsAux : Nat → Nat → Bytes
  | 0, _ => []
  | fuel + 1, n => if n < 10 then [48 + n] else natDigitsAux fuel (n / 10) ++ [48 + n % 10]

/-- Decimal digits of a natural number, most significant first. -/
def natDigits (n : Nat) : Bytes := natDigitsAux (n + 1) n

/-- Go `strconv.Itoa` on a (64-bit) integer, as bytes. -/
def itoa (n : Int) : Bytes :=
  if n < 0 then 45 :: natDigits (-n).toNat else natDigits n.toNat

/-- Every byte is an ASCII decimal digit. -/
def allDigits : Bytes → Bool
  | [] => true
  | c :: r => (48 ≤ c && c ≤ 57) && allDigits r

/-- Value of a digit string (most significant first). -/
def digitsVal (s : Bytes) : Nat := s.foldl (fun a c => a * 10 + (c - 48)) 0

/-- Parse a non-empty all-digit string. -/
def parseDigits (s : Bytes) : Option Nat :=
  if s ≠ [] ∧ allDigits s then some (digitsVal s) else none

/-- Go `strconv.Atoi`: optional single sign (`+` is 43, `-` is 45), then
decimal digits.  (Go also rejects 64-bit overflow; the tokens in scope never
reach that range, so the model keeps `Int` exact.) -/
def atoi (s : Bytes) : Option Int :=
  match s with
  | [] => none
  | c :: rest =>
    if c = 43 then (parseDigits rest).map (fun n => (n : Int))
    else if c = 45 then (parseDigits rest).map (fun n => -(n : Int))
    else (parseDigits (c :: rest)).map (fun n => (n : Int))

/-! ## Base32 (Go `encoding/base32` StdEncoding with StdPadding), translated
from go/src/encoding/base32/base32.go. -/

/-- The RFC 4648 standard alphabet `ABCDEFGHIJKLMNOPQRSTUVWXYZ234567` as bytes. -/
def b32alphabet : Bytes :=
  [65, 66, 67, 68, 69, 70, 71, 72, 73, 74, 75, 76, 77, 78, 79, 80, 81, 82, 83, 84,
   85, 86, 87, 88, 89, 90, 50, 51, 52, 53, 54, 55]

/-- Character for a 5-bit value. -/
def b32char (v : Nat) : Nat := b32alphabet.getD v 0

/-- Decode map of the standard alphabet (255 marks an invalid byte, like the
0xFF entries of Go's `decodeMap`). -/
def b32val (c : Nat) : Nat :=
  if 65 ≤ c ∧ c ≤ 90 then c - 65
  else if 50 ≤ c ∧ c ≤ 55 then c - 50 + 26
  else 255

/-- The eight 5-bit values of one 5-byte encoding quantum (Go's bit shuffles in
`Encoding.Encode`, written with division and remainder). -/
def encBlock (a b c d e : Nat) : List Nat :=
  [a / 8,
   (a % 8) * 4 + b / 64,
   (b / 2) % 32,
   (b % 2) * 16 + c / 16,
   (c % 16) * 2 + d / 128,
   (d / 4) % 32,
   (d % 4) * 8 + e / 32,
   e % 32]

/-- Go `base32.StdEncoding.EncodeToString`: full 5-byte quanta become 8
characters; a final partial quantum of r bytes becomes 2/4/5/7 characters
followed by `=` padding (61) up to 8. -/
def base32EncodePadded : Bytes → Bytes
  | a :: b :: c :: d :: e :: rest => (encBlock a b c d e).map b32char ++ base32EncodePadded rest
  | [] => []
  | [a] => ((encBlock a 0 0 0 0).take 2).map b32char ++ List.replicate 6 61
  | [a, b] => ((encBlock a b 0 0 0).take 4).map b32char ++ List.replicate 4 61
  | [a, b, c] => ((encBlock a b c 0 0).take 5).map b32char ++ List.replicate 3 61
  | [a, b, c, d] => ((encBlock a b c d 0).take 7).map b32char ++ List.replicate 1 61

/-- The same encoding with the trailing pad characters already dropped (used
to reason about the repository's `encodeToString`). -/
def encNoPad : Bytes → Bytes
  | a :: b :: c :: d :: e :: rest => (encBlock a b c d e).map b32char ++ encNoPad rest
  | [] => []
  | [a] => ((encBlock a 0 0 0 0).take 2).map b32char
  | [a, b] => ((encBlock a b 0 0 0).take 4).map b32char
  | [a, b, c] => ((encBlock a b c 0 0).take 5).map b32char
  | [a, b, c, d] => ((encBlock a b c d 0).take 7).map b32char

/-- Go `strings.TrimRight(s, "=")`. -/
def trimRightPad (s : Bytes) : Bytes := (s.reverse.dropWhile (fun c => c == 61)).reverse

/-- Pack the collected 5-bit values into output bytes, following the
`switch dlen` at the end of Go's `Encoding.decode`; the byte arithmetic there
truncates (`dbuf[1]<<6` on a byte keeps low bits only), hence the `% 256`. -/
def packBytes (dbuf : List Nat) (dlen : Nat) : Bytes :=
  let d := fun i => dbuf.getD i 0
  let b0 := (d 0 * 8 + d 1 / 4) % 256
  let b1 := (d 1 * 64 + d 2 * 2 + d 3 / 16) % 256
  let b2 := (d 3 * 16 + d 4 / 2) % 256
  let b3 := (d 4 * 128 + d 5 * 4 + d 6 / 8) % 256
  let b4 := (d 6 * 32 + d 7) % 256
  if dlen = 8 then [b0, b1, b2, b3, b4]
  else if dlen = 7 then [b0, b1, b2, b3]
  else if dlen = 5 then [b0, b1, b2]
  else if dlen = 4 then [b0, b1]
  else if dlen = 2 then [b0]
  else []

/-- Go's padding scan: the first `k` bytes of the remainder, where present,
must all be `=` (61). -/
def checkPads : Bytes → Nat → Bool
  | _, 0 => true
  | [], _ + 1 => true
  | c :: rest, k + 1 => c == 61 && checkPads rest k

/-- Decode one 8-character quantum (the inner `for j := 0; j < 8` loop of Go's
`Encoding.decode`).  The fuel counts the characters still to collect (starts
at 8); `dbuf` holds the collected 5-bit values in reverse.  Returns the
decoded bytes, the remaining input, and whether a padding run ended the
input (Go's `end`); `none` is `CorruptInputError`. -/
def decodeQuantum : Nat → List Nat → Bytes → Option (Bytes × Bytes × Bool)
  | 0, dbuf, src => some (packBytes dbuf.reverse 8, src, false)
  | fuel + 1, dbuf, src =>
    match src with
    | [] => none
    | c :: rest =>
      if c = 61 ∧ 2 ≤ dbuf.length ∧ rest.length < 8 then
        if rest.length + dbuf.length < 7 then none
        else if ¬ checkPads rest (7 - dbuf.length) then none
        else if dbuf.length = 3 ∨ dbuf.length = 6 then none
        else some (packBytes dbuf.reverse dbuf.length, [], true)
      else
        if b32val c = 255 then none
        else decodeQuantum fuel (b32val c :: dbuf) rest

/-- The outer quantum loop of Go's `Encoding.decode` (`for len(src) > 0 && !end`),
with fuel (one unit per quantum; callers pass `length + 1`). -/
def decodeBlocks : Nat → Bytes → Option Bytes
  | 0, _ => none
  | fuel + 1, src =>
    if src.isEmpty then some []
    else
      match decodeQuantum 8 [] src with
      | none => none
      | some (bytes, rest, ended) =>
        if ended then some bytes
        else
          match decodeBlocks fuel rest with
          | none => none
          | some more => some (bytes ++ more)

/-- Go `DecodeString` first strips `\r` and `\n`. -/
def stripNewlines (s : Bytes) : Bytes := s.filter (fun c => !(c == 10 || c == 13))

/-- Go `base32.StdEncoding.DecodeString`. -/
def base32DecodeString (s : Bytes) : Option Bytes :=
  let t := stripNewlines s
  decodeBlocks (t.length + 1) t

/-- magiclink.go `encodeToString`: standard base32 with the `=` padding
stripped from the right. -/
def encodeToString (b : Bytes) : Bytes := trimRightPad (base32EncodePadded b)

/-- magiclink.go `decodeFromString`: re-append `8 - len%8` pad characters
(note: a full block of 8 when the length is already a multiple of 8), then
decode. -/
def decodeFromString (s : Bytes) : Option Bytes :=
  base32DecodeString (s ++ List.replicate (8 - s.length % 8) 61)

/-- Number of characters the stripped encoding keeps for a final partial
quantum of r bytes. -/
def tailChars : Nat → Nat
  | 0 => 0
  | 1 => 2
  | 2 => 4
  | 3 => 5
  | _ => 7

/-! ## ULIDs (external library `github.com/oklog/ulid/v2`): 16 bytes, rendered
as 26 Crockford base-32 digits of the 128-bit big-endian value. -/

/-- A ULID is its 16-byte content (`ulid.ULID`, `Bytes()` is the identity). -/
abbrev ULID := Bytes

/-- Big-endian base-`base` digits, `k` of them, of a natural number. -/
def beDigits (base k N : Nat) : List Nat :=
  (List.range k).map (fun i => N / base ^ (k - 1 - i) % base)

/-- Value of big-endian base-`base` digits. -/
def undigits (base : Nat) (ds : List Nat) : Nat := ds.foldl (fun a d => a * base + d) 0

/-- The 128-bit value of 16 big-endian bytes. -/
def bytesToNat (u : Bytes) : Nat := undigits 256 u

/-- The 16 big-endian bytes of a value below 2^128. -/
def natToBytes16 (N : Nat) : Bytes := beDigits 256 16 N

/-- Crockford base-32 alphabet `0123456789ABCDEFGHJKMNPQRSTVWXYZ` as bytes. -/
def crockAlphabet : Bytes :=
  [48, 49, 50, 51, 52, 53, 54, 55, 56, 57,
   65, 66, 67, 68, 69, 70, 71, 72, 74, 75, 77, 78, 80, 81, 82, 83, 84, 86, 87, 88, 89, 90]

/-- Crockford digit character for a 5-bit value. -/
def crockChar (v : Nat) : Nat := crockAlphabet.getD v 48

/-- Crockford decode table (oklog's `dec`), accepting both cases; 255 marks an
invalid byte. -/
def crockVal (c : Nat) : Nat :=
  if 48 ≤ c ∧ c ≤ 57 then c - 48
  else if 65 ≤ c ∧ c ≤ 72 then c - 55
  else if c = 74 ∨ c = 75 then c - 56
  else if c = 77 ∨ c = 78 then c - 57
  else if 80 ≤ c ∧ c ≤ 84 then c - 58
  else if 86 ≤ c ∧ c ≤ 90 then c - 59
  else if 97 ≤ c ∧ c ≤ 104 then c - 87
  else if c = 106 ∨ c = 107 then c - 88
  else if c = 109 ∨ c = 110 then c - 89
  else if 112 ≤ c ∧ c ≤ 116 then c - 90
  else if 118 ≤ c ∧ c ≤ 122 then c - 91
  else 255

/-- `ulid.ULID.String()`: the 26 Crockford digits of the 128-bit value (the
top two of the 130 encoded bits are zero). -/
def ulidString (u : ULID) : Bytes := (beDigits 32 26 (bytesToNat u)).map crockChar

/-- `ulid.ParseStrict`: length must be 26, all characters valid, and the first
character at most `7` (55) so the 130 bits fit in 128. -/
def parseStrict (s : Bytes) : Option ULID :=
  if s.length = 26 then
    if s.all (fun c => crockVal c != 255) then
      if s.headD 0 ≤ 55 then some (natToBytes16 (undigits 32 (s.map crockVal)))
      else none
    else none
  else none

/-- The zero value of `ulid.ULID`. -/
def zeroULID : ULID := List.replicate 16 0

/-- `IsZeroULID` (package gomagiclink): `u.Compare(zeroULID) == 0`;
`ulid.ULID.Compare` is `bytes.Compare` on the sixteen bytes, so the result is
`0` exactly when the bytes are equal. -/
def IsZeroULID (u : ULID) : Bool := u == zeroULID

/-- `ulid.Make()`: 48-bit millisecond timestamp followed by 80 random bits. -/
def ulidMake (timestampMs : Nat) (entropy : Nat) : ULID :=
  natToBytes16 (timestampMs % 2 ^ 48 * 2 ^ 80 + entropy % 2 ^ 80)

/-! ## Data model and controller (magiclink.go) -/

/-- Error taxonomy of magiclink.go; `other` stands for any further error value
a storage implementation may surface. -/
inductive GoError where
  | userAlreadyExists
  | userNotFound
  | secretKeyTooShort
  | invalidChallenge
  | brokenChallenge
  | expiredChallenge
  | invalidSessionId
  | brokenSessionId
  | expiredSessionId
  | other (n : Nat)
deriving DecidableEq, Repr

/-- `AuthUserRecord`; times are Unix seconds, `CustomData` is the opaque
application payload (`nil` at creation). -/
structure AuthUserRecord where
  ID : ULID
  Email : Bytes
  Enabled : Bool
  FirstLoginTime : Int
  RecentLoginTime : Int
  CustomData : Option Bytes
deriving DecidableEq, Repr

/-- Decidable equality of Go-style results, for concrete evaluation. -/
instance {e a : Type} [DecidableEq e] [DecidableEq a] : DecidableEq (Except e a) := fun x y =>
  match x, y with
  | .error u, .error v =>
    if h : u = v then .isTrue (by rw [h]) else .isFalse (by intro hh; injection hh; exact h ‹_›)
  | .error _, .ok _ => .isFalse (fun hh => Except.noConfusion hh)
  | .ok _, .error _ => .isFalse (fun hh => Except.noConfusion hh)
  | .ok u, .ok v =>
    if h : u = v then .isTrue (by rw [h]) else .isFalse (by intro hh; injection hh; exact h ‹_›)

/-- The `UserAuthDatabase` interface, restricted to the methods the verified
core calls (`GetUserByEmail`, `GetUserById`).  Go's `(value, error)` pair is
modelled as `Except`. -/
structure UserAuthDatabase where
  getUserByEmail : Bytes → Except GoError AuthUserRecord
  getUserById : ULID → Except GoError AuthUserRecord

/-- Abstract model of the external `crypto/sha256` and `crypto/hmac`
libraries: `hmacSha256 key msg` is `HMAC-SHA256(key, msg)`. -/
structure HashModel where
  sha256 : Bytes → Bytes
  hmacSha256 : Bytes → Bytes → Bytes

/-- `AuthMagicLinkController` (durations in whole seconds). -/
structure AuthMagicLinkController where
  secretKeyHash : Bytes
  challengeExpDuration : Int
  sessionExpDuration : Int
  db : UserAuthDatabase

/-- `NewAuthMagicLinkController`: reject secrets shorter than 16 bytes, keep
only the SHA-256 digest of the secret. -/
def NewAuthMagicLinkController (H : HashModel) (secretKey : Bytes)
    (challengeExpDuration sessionExpDuration : Int) (db : UserAuthDatabase) :
    Except GoError AuthMagicLinkController :=
  if secretKey.length < 16 then .error .secretKeyTooShort
  else .ok { secretKeyHash := H.sha256 secretKey
             challengeExpDuration := challengeExpDuration
             sessionExpDuration := sessionExpDuration
             db := db }

/-- `makeHMAC`: HMAC-SHA256 keyed with the stored secret-key digest. -/
def makeHMAC (H : HashModel) (mlc : AuthMagicLinkController) (payload : Bytes) : Bytes :=
  H.hmacSha256 mlc.secretKeyHash payload

/-- `NewAuthUserRecord` (the fresh `ulid.Make()` result and `time.Now()` are
passed in); never fails in the source. -/
def NewAuthUserRecord (email : Bytes) (freshId : ULID) (now : Int) : AuthUserRecord :=
  { ID := freshId
    Email := NormalizeEmail email
    Enabled := true
    FirstLoginTime := now
    RecentLoginTime := now
    CustomData := none }

/-- `AuthUserRecord.GetID`: assign a fresh ULID if the field is still zero;
returns the identifier together with the (possibly updated) record, since the
Go method mutates its receiver. -/
def AuthUserRecord.GetID (fresh : ULID) (aur : AuthUserRecord) : ULID × AuthUserRecord :=
  if IsZeroULID aur.ID then (fresh, { aur with ID := fresh }) else (aur.ID, aur)

/-- `AuthUserRecord.GetKeyName`: `"_" + id.String() + "_" + email`, assigning
a fresh identifier first if the field is still zero. -/
def AuthUserRecord.GetKeyName (fresh : ULID) (aur : AuthUserRecord) : Bytes × AuthUserRecord :=
  let aur2 := if IsZeroULID aur.ID then { aur with ID := fresh } else aur
  (95 :: ulidString aur2.ID ++ 95 :: aur2.Email, aur2)

/-- Rejoin split parts with the separator (inverse of `splitOnByte`). -/
def joinSep (sep : Nat) : List Bytes → Bytes
  | [] => []
  | [p] => p
  | p :: ps => p ++ sep :: joinSep sep ps

/-- `strings.Split(s, "-")` for a one-byte separator. -/
def splitOnByte (sep : Nat) : Bytes → List Bytes
  | [] => [[]]
  | c :: rest =>
    match splitOnByte sep rest with
    | [] => [[c]]
    | p :: ps => if c = sep then [] :: p :: ps else (c :: p) :: ps

/-- `GenerateChallenge` (salt from `crypto/rand` and the current Unix time are
passed in).  Format: `"9" + enc(salt) + "-" + enc(email) + "-" + expTime +
"-" + enc(HMAC(salt || 0 || email || 0 || itoa(expTime)))`. -/
def GenerateChallenge (H : HashModel) (mlc : AuthMagicLinkController)
    (salt : Bytes) (now : Int) (email : Bytes) : Bytes :=
  let e := NormalizeEmail email
  let expTime := now + mlc.challengeExpDuration
  let mac := makeHMAC H mlc (salt ++ 0 :: e ++ 0 :: itoa expTime)
  57 :: encodeToString salt ++ 45 :: encodeToString e ++ 45 :: itoa expTime ++
    45 :: encodeToString mac

/-- The field-wise part of `VerifyChallenge`, after the signature check and
the split into exactly four parts. -/
def verifyChallengeFields (H : HashModel) (mlc : AuthMagicLinkController)
    (now : Int) (freshId : ULID) (p0 p1 p2 p3 : Bytes) : Except GoError AuthUserRecord :=
  match decodeFromString p0 with
  | none => .error .invalidChallenge
  | some salt =>
    match decodeFromString p1 with
    | none => .error .invalidChallenge
    | some email =>
      match atoi p2 with
      | none => .error .invalidChallenge
      | some expTime =>
        if expTime < now then .error .expiredChallenge
        else
          match decodeFromString p3 with
          | none => .error .invalidChallenge
          | some hmac1 =>
            let hmac2 := makeHMAC H mlc (salt ++ 0 :: email ++ 0 :: itoa expTime)
            if hmac1 = hmac2 then
              match mlc.db.getUserByEmail email with
              | .ok u => .ok { u with RecentLoginTime := now }
              | .error .userNotFound => .ok (NewAuthUserRecord email freshId now)
              | .error e => .error e
            else .error .brokenChallenge

/-- `VerifyChallenge`: signature character `9` (57), split on `-` into exactly
four parts, then decode and check the fields; on success load the user by
e-mail or fabricate a new record when the store reports `ErrUserNotFound`,
refreshing `RecentLoginTime` either way. -/
def VerifyChallenge (H : HashModel) (mlc : AuthMagicLinkController)
    (now : Int) (freshId : ULID) (challenge : Bytes) : Except GoError AuthUserRecord :=
  match challenge with
  | [] => .error .invalidChallenge
  | c0 :: body =>
    if c0 = 57 then
      match splitOnByte 45 body with
      | [p0, p1, p2, p3] => verifyChallengeFields H mlc now freshId p0 p1 p2 p3
      | _ => .error .invalidChallenge
    else .error .invalidChallenge

/-- `GenerateSessionId`: format `"S" + enc(salt) + "-" + user.ID.String() +
"-" + expTimeStr + "-" + enc(HMAC(salt || 0 || user.ID.Bytes() || 0 ||
expTimeStr))`, where the expiry is 0 unless the configured session expiry
duration is positive. -/
def GenerateSessionId (H : HashModel) (mlc : AuthMagicLinkController)
    (salt : Bytes) (now : Int) (user : AuthUserRecord) : Bytes :=
  let userId := ulidString user.ID
  let expTime : Int := if mlc.sessionExpDuration > 0 then now + mlc.sessionExpDuration else 0
  let expTimeStr := itoa expTime
  let mac := makeHMAC H mlc (salt ++ 0 :: user.ID ++ 0 :: expTimeStr)
  83 :: encodeToString salt ++ 45 :: userId ++ 45 :: expTimeStr ++ 45 :: encodeToString mac

/-- The field-wise part of `VerifySessionId`; note that the HMAC is recomputed
over the raw expiry field bytes `p2`, not over a canonical re-encoding. -/
def verifySessionIdFields (H : HashModel) (mlc : AuthMagicLinkController)
    (now : Int) (p0 p1 p2 p3 : Bytes) : Except GoError AuthUserRecord :=
  match decodeFromString p0 with
  | none => .error .invalidSessionId
  | some salt =>
    match parseStrict p1 with
    | none => .error .invalidSessionId
    | some userId =>
      match atoi p2 with
      | none => .error .invalidSessionId
      | some expTime =>
        if expTime < now then .error .expiredSessionId
        else
          match decodeFromString p3 with
          | none => .error .invalidSessionId
          | some hmac1 =>
            let hmac2 := makeHMAC H mlc (salt ++ 0 :: userId ++ 0 :: p2)
            if hmac1 = hmac2 then mlc.db.getUserById userId
            else .error .brokenSessionId

/-- `VerifySessionId`: signature character `S` (83), split on `-` into exactly
four parts, then decode and check the fields; on success the record is loaded
from the store by identifier (never fabricated). -/
def VerifySessionId (H : HashModel) (mlc : AuthMagicLinkController)
    (now : Int) (sessionId : Bytes) : Except GoError AuthUserRecord :=
  match sessionId with
  | [] => .error .invalidSessionId
  | c0 :: body =>
    if c0 = 83 then
      match splitOnByte 45 body with
      | [p0, p1, p2, p3] => verifySessionIdFields H mlc now p0 p1 p2 p3
      | _ => .error .invalidSessionId
    else .error .invalidSessionId


/-! ## Concrete instances used by the closed witness and counterexample
theorems -/

/-- A small executable hash model: a constant 32-byte digest and an injective
keyed MAC (the key followed by the message). -/
def toyHash : HashModel :=
  { sha256 := fun _ => List.replicate 32 0
    hmacSha256 := fun key msg => key ++ msg }

/-- A user store with no users. -/
def emptyDb : UserAuthDatabase :=
  { getUserByEmail := fun _ => .error .userNotFound
    getUserById := fun _ => .error .userNotFound }

/-- A user store holding exactly one record. -/
def oneUserDb (r : AuthUserRecord) : UserAuthDatabase :=
  { getUserByEmail := fun e => if e = r.Email then .ok r else .error .userNotFound
    getUserById := fun i => if i = r.ID then .ok r else .error .userNotFound }

/-- A controller over the toy hash model (challenge expiry 100 s, session
expiry non-positive, empty store). -/
def mlc0 : AuthMagicLinkController :=
  { secretKeyHash := toyHash.sha256 (List.replicate 16 0)
    challengeExpDuration := 100
    sessionExpDuration := 0
    db := emptyDb }

/-- A record whose identifier is still the zero value. -/
def zrec : AuthUserRecord :=
  { ID := zeroULID
    Email := [97]
    Enabled := true
    FirstLoginTime := 0
    RecentLoginTime := 0
    CustomData := none }

/-- A record with a concrete non-zero identifier. -/
def rec1 : AuthUserRecord :=
  { ID := List.replicate 15 0 ++ [1]
    Email := [97]
    Enabled := true
    FirstLoginTime := 5
    RecentLoginTime := 5
    CustomData := none }

/-- The e-mail address `a@b.cd` (normalized form equal to itself, length 6). -/
def em6 : Bytes := [97, 64, 98, 46, 99, 100]

/-- A concrete challenge token issued for `em6` at time 1000 with the salt
`[1,…,8]` over the toy model. -/
def c5tok : Bytes := GenerateChallenge toyHash mlc0 [1, 2, 3, 4, 5, 6, 7, 8] 1000 em6

/-- `c5tok` without its final character (which lies inside the MAC field). -/
def c5pre : Bytes := c5tok.dropLast

/-- The record `VerifyChallenge` fabricates for `em6` against the empty
store. -/
def c5rec : AuthUserRecord := NewAuthUserRecord em6 zeroULID 1000

/-! ## List helpers -/

theorem dropWhile_of_head_false {p : Nat → Bool} {c : Nat} {t : Bytes} (h : p c = false) :
    (c :: t).dropWhile p = c :: t := by
  simp [List.dropWhile, h]

theorem dropWhile_append_of_ne_nil {p : Nat → Bool} {u : Bytes} (v : Bytes)
    (h : u.dropWhile p ≠ []) : (u ++ v).dropWhile p = u.dropWhile p ++ v := by
  induction u with
  | nil => exact absurd rfl h
  | cons c t ih =>
    by_cases hc : p c
    · have h2 : t.dropWhile p ≠ [] := by simpa [List.dropWhile, hc] using h
      simpa [List.dropWhile, hc] using ih h2
    · simp [List.dropWhile, hc]

theorem dropWhile_replicate_append {p : Nat → Bool} {a : Nat} (hp : p a = true)
    (k : Nat) (l : Bytes) : (List.replicate k a ++ l).dropWhile p = l.dropWhile p := by
  induction k with
  | zero => simp
  | succ k ih =>
    rw [List.replicate_succ, List.cons_append]
    simp only [List.dropWhile, hp]
    exact ih

theorem dropWhile_eq_self_of_forall {p : Nat → Bool} {l : Bytes}
    (h : ∀ x ∈ l, p x = false) : l.dropWhile p = l := by
  cases l with
  | nil => rfl
  | cons c t => exact dropWhile_of_head_false (h c (List.mem_cons_self c t))

theorem dropWhile_idem {p : Nat → Bool} (l : Bytes) :
    (l.dropWhile p).dropWhile p = l.dropWhile p := by
  induction l with
  | nil => rfl
  | cons c t ih =>
    by_cases hc : p c
    · simpa [List.dropWhile, hc] using ih
    · simp [List.dropWhile, hc]

/-! ## splitOnByte lemmas -/

theorem splitOnByte_ne_nil (sep : Nat) (l : Bytes) : splitOnByte sep l ≠ [] := by
  cases l with
  | nil => simp [splitOnByte]
  | cons c rest =>
    simp only [splitOnByte]
    cases h : splitOnByte sep rest with
    | nil => simp
    | cons p ps => by_cases hc : c = sep <;> simp [hc]

theorem splitOnByte_of_not_mem {sep : Nat} {l : Bytes} (h : sep ∉ l) :
    splitOnByte sep l = [l] := by
  induction l with
  | nil => rfl
  | cons c rest ih =>
    have hc : ¬ c = sep := fun e => h (e ▸ List.mem_cons_self c rest)
    have hr : sep ∉ rest := fun m => h (List.mem_cons_of_mem _ m)
    simp [splitOnByte, ih hr, hc]

theorem splitOnByte_append_cons {sep : Nat} {xs : Bytes} (h : sep ∉ xs) (rest : Bytes) :
    splitOnByte sep (xs ++ sep :: rest) = xs :: splitOnByte sep rest := by
  induction xs with
  | nil =>
    simp only [List.nil_append, splitOnByte]
    cases hr : splitOnByte sep rest with
    | nil => exact absurd hr (splitOnByte_ne_nil sep rest)
    | cons p ps => simp
  | cons c xs ih =>
    have hc : ¬ c = sep := fun e => h (e ▸ List.mem_cons_self c xs)
    have hx : sep ∉ xs := fun m => h (List.mem_cons_of_mem _ m)
    have hstep : (c :: xs) ++ sep :: rest = c :: (xs ++ sep :: rest) := rfl
    rw [hstep]
    simp only [splitOnByte]
    rw [ih hx]
    simp [hc]

theorem length_splitOnByte (sep : Nat) (l : Bytes) :
    (splitOnByte sep l).length = l.count sep + 1 := by
  induction l with
  | nil => simp [splitOnByte]
  | cons c rest ih =>
    simp only [splitOnByte]
    cases h : splitOnByte sep rest with
    | nil => exact absurd h (splitOnByte_ne_nil sep rest)
    | cons p ps =>
      rw [h] at ih
      by_cases hc : c = sep
      · subst hc
        simp only [List.length_cons] at ih
        simp [List.count_cons_self]
        omega
      · simp only [List.length_cons] at ih
        simp [hc, List.count_cons_of_ne (fun e => hc e.symm)]
        omega

theorem mem_splitOnByte_not_mem {sep : Nat} {l p : Bytes} :
    p ∈ splitOnByte sep l → sep ∉ p := by
  induction l generalizing p with
  | nil =>
    intro h
    simp [splitOnByte] at h
    simp [h]
  | cons c rest ih =>
    simp only [splitOnByte]
    cases h : splitOnByte sep rest with
    | nil => exact absurd h (splitOnByte_ne_nil sep rest)
    | cons q ps =>
      by_cases hc : c = sep
      · simp only [if_pos hc]
        intro hm
        rcases List.mem_cons.mp hm with h1 | h2
        · simp [h1]
        · exact ih (h ▸ h2)
      · simp only [if_neg hc]
        intro hm
        rcases List.mem_cons.mp hm with h1 | h2
        · subst h1
          intro hmem
          rcases List.mem_cons.mp hmem with h3 | h4
          · exact hc h3.symm
          · exact ih (h ▸ List.mem_cons_self q ps) h4
        · exact ih (h ▸ List.mem_cons_of_mem _ h2)

/-! ## Decimal codec lemmas -/

theorem natDigitsAux_mem : ∀ fuel n, ∀ c ∈ natDigitsAux fuel n, 48 ≤ c ∧ c ≤ 57 := by
  intro fuel
  induction fuel with
  | zero => intro n c hc; simp [natDigitsAux] at hc
  | succ fuel ih =>
    intro n c hc
    by_cases hn : n < 10
    · simp [natDigitsAux, hn] at hc
      omega
    · simp only [natDigitsAux, if_neg hn, List.mem_append, List.mem_singleton] at hc
      rcases hc with h | h
      · exact ih _ c h
      · have : n % 10 < 10 := Nat.mod_lt _ (by omega)
        omega

theorem natDigitsAux_ne_nil (fuel n : Nat) : natDigitsAux (fuel + 1) n ≠ [] := by
  by_cases hn : n < 10 <;> simp [natDigitsAux, hn]

theorem foldl_natDigitsAux : ∀ fuel n acc, n < fuel →
    (natDigitsAux fuel n).foldl (fun a c => a * 10 + (c - 48)) acc =
      acc * 10 ^ (natDigitsAux fuel n).length + n := by
  intro fuel
  induction fuel with
  | zero => intro n acc h; omega
  | succ fuel ih =>
    intro n acc h
    by_cases hn : n < 10
    · simp [natDigitsAux, hn, List.foldl]
    · have hdiv : n / 10 < fuel := by
        have h1 : n / 10 < n := Nat.div_lt_self (by omega) (by omega)
        omega
      simp only [natDigitsAux, if_neg hn, List.foldl_append, List.length_append, ih _ acc hdiv,
        List.foldl, List.length]
      have hmod : n % 10 < 10 := Nat.mod_lt _ (by omega)
      have : (48 + n % 10) - 48 = n % 10 := by omega
      rw [this, pow_succ]
      have := Nat.div_add_mod n 10
      ring_nf
      omega

theorem allDigits_iff : ∀ s : Bytes, allDigits s = true ↔ ∀ c ∈ s, 48 ≤ c ∧ c ≤ 57 := by
  intro s
  induction s with
  | nil => simp [allDigits]
  | cons c t ih => simp [allDigits, ih]

theorem parseDigits_natDigits (n : Nat) : parseDigits (natDigits n) = some n := by
  have hne : natDigits n ≠ [] := natDigitsAux_ne_nil n n
  have hdig : allDigits (natDigits n) = true :=
    (allDigits_iff _).mpr (fun c hc => natDigitsAux_mem _ n c hc)
  have hval : digitsVal (natDigits n) = n := by
    have := foldl_natDigitsAux (n + 1) n 0 (by omega)
    simpa [digitsVal, natDigits] using this
  simp [parseDigits, hne, hdig, hval]

theorem natDigits_head_digit (n : Nat) :
    ∃ c t, natDigits n = c :: t ∧ 48 ≤ c ∧ c ≤ 57 := by
  cases h : natDigits n with
  | nil => exact absurd h (natDigitsAux_ne_nil n n)
  | cons c t =>
    refine ⟨c, t, rfl, ?_⟩
    exact natDigitsAux_mem _ n c (h ▸ List.mem_cons_self c t)

theorem atoi_of_digit {c : Nat} (t : Bytes) (h1 : 48 ≤ c) (h2 : c ≤ 57) :
    atoi (c :: t) = (parseDigits (c :: t)).map (fun n => (n : Int)) := by
  have hc43 : ¬ c = 43 := by omega
  have hc45 : ¬ c = 45 := by omega
  simp [atoi, hc43, hc45]

theorem atoi_itoa (n : Int) : atoi (itoa n) = some n := by
  by_cases hn : n < 0
  · have key : atoi (45 :: natDigits (-n).toNat) =
        (parseDigits (natDigits (-n).toNat)).map (fun m => -(m : Int)) := rfl
    rw [itoa, if_pos hn, key, parseDigits_natDigits]
    show some (-(((-n).toNat : Int))) = some n
    rw [Int.toNat_of_nonneg (by omega), neg_neg]
  · obtain ⟨c, t, heq, h1, h2⟩ := natDigits_head_digit n.toNat
    rw [itoa, if_neg hn, heq, atoi_of_digit t h1 h2, ← heq, parseDigits_natDigits]
    show some ((n.toNat : Int)) = some n
    rw [Int.toNat_of_nonneg (by omega)]

theorem itoa_mem_digit {n : Int} (hn : 0 ≤ n) : ∀ c ∈ itoa n, 48 ≤ c ∧ c ≤ 57 := by
  intro c hc
  simp only [itoa, if_neg (by omega : ¬ n < 0)] at hc
  exact natDigitsAux_mem _ _ c hc

theorem itoa_not_mem_dash {n : Int} (hn : 0 ≤ n) : (45 : Nat) ∉ itoa n := by
  intro h
  have := itoa_mem_digit hn 45 h
  omega

theorem itoa_inj {m n : Int} (h : itoa m = itoa n) : m = n := by
  have h1 := atoi_itoa m
  rw [h, atoi_itoa n] at h1
  exact (Option.some_inj.mp h1).symm

/-! ## Base32 lemmas -/

/-- Induction on a byte list in chunks of five, mirroring the quantum
structure of the encoder. -/
theorem byChunks5 {P : Bytes → Prop} (h0 : P [])
    (h1 : ∀ a, P [a]) (h2 : ∀ a b, P [a, b]) (h3 : ∀ a b c, P [a, b, c])
    (h4 : ∀ a b c d, P [a, b, c, d])
    (h5 : ∀ a b c d e rest, P rest → P (a :: b :: c :: d :: e :: rest)) : ∀ l, P l := by
  have key : ∀ n l, List.length l ≤ n → P l := by
    intro n
    induction n with
    | zero =>
      intro l hl
      have : l = [] := List.eq_nil_of_length_eq_zero (Nat.le_zero.mp hl)
      exact this ▸ h0
    | succ n ih =>
      intro l hl
      rcases l with _ | ⟨a, _ | ⟨b, _ | ⟨c, _ | ⟨d, _ | ⟨e, rest⟩⟩⟩⟩⟩
      · exact h0
      · exact h1 a
      · exact h2 a b
      · exact h3 a b c
      · exact h4 a b c d
      · refine h5 a b c d e rest (ih rest ?_)
        simp only [List.length_cons] at hl
        omega
  exact fun l => key l.length l le_rfl

theorem encBlock_mem_lt {a b c d e : Nat} (ha : a < 256) (hbb : b < 256) (hc : c < 256)
    (hd : d < 256) (he : e < 256) : ∀ v ∈ encBlock a b c d e, v < 32 := by
  simp only [encBlock, List.mem_cons, List.not_mem_nil, or_false]
  intro v hv
  rcases hv with h | h | h | h | h | h | h | h <;> omega

theorem b32char_range (v : Nat) :
    b32char v = 0 ∨ (65 ≤ b32char v ∧ b32char v ≤ 90) ∨ (50 ≤ b32char v ∧ b32char v ≤ 55) := by
  rcases Nat.lt_or_ge v 32 with h | h
  · have key : ∀ w < 32, (65 ≤ b32char w ∧ b32char w ≤ 90) ∨ (50 ≤ b32char w ∧ b32char w ≤ 55) := by
      decide
    exact Or.inr (key v h)
  · left
    have hlen : b32alphabet.length ≤ v := by
      simp only [b32alphabet]
      simpa using h
    simp [b32char, List.getD, List.getElem?_eq_none hlen]

theorem b32char_ne61 (v : Nat) : b32char v ≠ 61 := by
  rcases b32char_range v with h | h | h <;> omega

theorem b32char_ne45 (v : Nat) : b32char v ≠ 45 := by
  rcases b32char_range v with h | h | h <;> omega

theorem b32char_not_newline (v : Nat) : b32char v ≠ 10 ∧ b32char v ≠ 13 := by
  rcases b32char_range v with h | h | h <;> omega

theorem b32val_b32char {v : Nat} (h : v < 32) : b32val (b32char v) = v := by
  have key : ∀ w < 32, b32val (b32char w) = w := by decide
  exact key v h

/-- Characters of the stripped encoding all come from the alphabet map. -/
theorem mem_encNoPad {c : Nat} : ∀ l : Bytes, c ∈ encNoPad l → ∃ v, c = b32char v := by
  refine byChunks5 ?_ ?_ ?_ ?_ ?_ ?_
  · intro h
    simp [encNoPad] at h
  · intro a h
    simp only [encNoPad] at h
    rcases List.mem_map.mp h with ⟨v, _, hv⟩
    exact ⟨v, hv.symm⟩
  · intro a b h
    simp only [encNoPad] at h
    rcases List.mem_map.mp h with ⟨v, _, hv⟩
    exact ⟨v, hv.symm⟩
  · intro a b cc h
    simp only [encNoPad] at h
    rcases List.mem_map.mp h with ⟨v, _, hv⟩
    exact ⟨v, hv.symm⟩
  · intro a b cc d h
    simp only [encNoPad] at h
    rcases List.mem_map.mp h with ⟨v, _, hv⟩
    exact ⟨v, hv.symm⟩
  · intro a b cc d e rest ih h
    simp only [encNoPad, List.mem_append] at h
    rcases h with h | h
    · rcases List.mem_map.mp h with ⟨v, _, hv⟩
      exact ⟨v, hv.symm⟩
    · exact ih h

theorem encNoPad_no61 {l : Bytes} : ∀ x ∈ encNoPad l, x ≠ 61 := by
  intro x hx
  rcases mem_encNoPad l hx with ⟨v, rfl⟩
  exact b32char_ne61 v

theorem encNoPad_no45 {l : Bytes} : ∀ x ∈ encNoPad l, x ≠ 45 := by
  intro x hx
  rcases mem_encNoPad l hx with ⟨v, rfl⟩
  exact b32char_ne45 v

theorem encNoPad_ne_nil {l : Bytes} (h : l ≠ []) : encNoPad l ≠ [] := by
  rcases l with _ | ⟨a, _ | ⟨b, _ | ⟨c, _ | ⟨d, _ | ⟨e, rest⟩⟩⟩⟩⟩
  · exact absurd rfl h
  all_goals simp [encNoPad, encBlock]

theorem trimRightPad_eq_self {l : Bytes} (h : ∀ x ∈ l, x ≠ 61) : trimRightPad l = l := by
  unfold trimRightPad
  rw [dropWhile_eq_self_of_forall, List.reverse_reverse]
  intro x hx
  simp [h x (List.mem_reverse.mp hx)]

theorem trimRightPad_append_pads {l : Bytes} (h : ∀ x ∈ l, x ≠ 61) (k : Nat) :
    trimRightPad (l ++ List.replicate k 61) = l := by
  unfold trimRightPad
  rw [List.reverse_append, List.reverse_replicate,
    dropWhile_replicate_append (by simp) k, dropWhile_eq_self_of_forall, List.reverse_reverse]
  intro x hx
  simp [h x (List.mem_reverse.mp hx)]

theorem trimRightPad_append_right {x y : Bytes} (h : trimRightPad y ≠ []) :
    trimRightPad (x ++ y) = x ++ trimRightPad y := by
  have hdw : y.reverse.dropWhile (fun c => c == 61) ≠ [] := by
    intro e
    exact h (by simp [trimRightPad, e])
  unfold trimRightPad
  rw [List.reverse_append, dropWhile_append_of_ne_nil x.reverse hdw, List.reverse_append,
    List.reverse_reverse]

theorem encodeToString_eq : ∀ l : Bytes, encodeToString l = encNoPad l := by
  refine byChunks5 rfl ?_ ?_ ?_ ?_ ?_
  · intro a
    exact trimRightPad_append_pads (fun x hx => (mem_encNoPad [a] hx).elim (fun v hv => hv ▸ b32char_ne61 v)) 6
  · intro a b
    exact trimRightPad_append_pads (fun x hx => (mem_encNoPad [a, b] hx).elim (fun v hv => hv ▸ b32char_ne61 v)) 4
  · intro a b c
    exact trimRightPad_append_pads (fun x hx => (mem_encNoPad [a, b, c] hx).elim (fun v hv => hv ▸ b32char_ne61 v)) 3
  · intro a b c d
    exact trimRightPad_append_pads (fun x hx => (mem_encNoPad [a, b, c, d] hx).elim (fun v hv => hv ▸ b32char_ne61 v)) 1
  · intro a b c d e rest ih
    show trimRightPad ((encBlock a b c d e).map b32char ++ base32EncodePadded rest) =
      (encBlock a b c d e).map b32char ++ encNoPad rest
    have hno61 : ∀ x ∈ (encBlock a b c d e).map b32char, x ≠ 61 := by
      intro x hx
      rcases List.mem_map.mp hx with ⟨v, _, hv⟩
      exact hv ▸ b32char_ne61 v
    rcases eq_or_ne rest [] with hrest | hrest
    · subst hrest
      show trimRightPad (_ ++ base32EncodePadded []) = _
      rw [show base32EncodePadded [] = ([] : Bytes) from rfl, List.append_nil,
        trimRightPad_eq_self hno61, show encNoPad [] = ([] : Bytes) from rfl, List.append_nil]
    · have hne : trimRightPad (base32EncodePadded rest) ≠ [] := by
        show encodeToString rest ≠ []
        rw [ih]
        exact encNoPad_ne_nil hrest
      rw [trimRightPad_append_right hne]
      congr 1

theorem encNoPad_length : ∀ l : Bytes,
    (encNoPad l).length = l.length / 5 * 8 + tailChars (l.length % 5) := by
  refine byChunks5 ?_ ?_ ?_ ?_ ?_ ?_
  · simp [encNoPad, tailChars]
  · intro a; simp [encNoPad, encBlock, tailChars]
  · intro a b; simp [encNoPad, encBlock, tailChars]
  · intro a b c; simp [encNoPad, encBlock, tailChars]
  · intro a b c d; simp [encNoPad, encBlock, tailChars]
  · intro a b c d e rest ih
    show ((encBlock a b c d e).map b32char ++ encNoPad rest).length = _
    rw [List.length_append, ih]
    have h8 : ((encBlock a b c d e).map b32char).length = 8 := by simp [encBlock]
    rw [h8]
    have h1 : (a :: b :: c :: d :: e :: rest).length = rest.length + 5 := by
      simp
    rw [h1]
    have h2 : (rest.length + 5) % 5 = rest.length % 5 := by omega
    have h3 : (rest.length + 5) / 5 = rest.length / 5 + 1 := by omega
    rw [h2, h3]
    ring

theorem checkPads_replicate : ∀ k, checkPads (List.replicate k 61) k = true := by
  intro k
  induction k with
  | zero => rfl
  | succ k ih => simpa [List.replicate_succ, checkPads] using ih

/-- Consuming valid non-pad characters steps the quantum decoder one character
at a time. -/
theorem decodeQuantum_steps (ds : List Nat) (hds : ∀ v ∈ ds, v < 32) :
    ∀ f dbuf src, decodeQuantum (ds.length + f) dbuf (ds.map b32char ++ src) =
      decodeQuantum f (ds.reverse ++ dbuf) src := by
  induction ds with
  | nil => intro f dbuf src; simp
  | cons v ds ih =>
    intro f dbuf src
    have hv : v < 32 := hds v (List.mem_cons_self v ds)
    have hne : ¬ (b32char v = 61 ∧ 2 ≤ dbuf.length ∧ (ds.map b32char ++ src).length < 8) :=
      fun hc => b32char_ne61 v hc.1
    have hval : ¬ b32val (b32char v) = 255 := by
      rw [b32val_b32char hv]
      omega
    have hlen : (v :: ds).length + f = (ds.length + f) + 1 := by simp; omega
    rw [hlen]
    show decodeQuantum ((ds.length + f) + 1) dbuf (b32char v :: (ds.map b32char ++ src)) = _
    rw [show decodeQuantum ((ds.length + f) + 1) dbuf (b32char v :: (ds.map b32char ++ src)) =
      if b32char v = 61 ∧ 2 ≤ dbuf.length ∧ (ds.map b32char ++ src).length < 8 then
        (if (ds.map b32char ++ src).length + dbuf.length < 7 then none
         else if ¬ checkPads (ds.map b32char ++ src) (7 - dbuf.length) then none
         else if dbuf.length = 3 ∨ dbuf.length = 6 then none
         else some (packBytes dbuf.reverse dbuf.length, [], true))
      else
        if b32val (b32char v) = 255 then none
        else decodeQuantum (ds.length + f) (b32val (b32char v) :: dbuf) (ds.map b32char ++ src)
      from rfl, if_neg hne, if_neg hval, b32val_b32char hv,
      ih (fun w hw => hds w (List.mem_cons_of_mem v hw)) f (v :: dbuf) src]
    congr 1
    simp

theorem packBytes_encBlock {a b c d e : Nat} (ha : a < 256) (hbb : b < 256) (hc : c < 256)
    (hd : d < 256) (he : e < 256) : packBytes (encBlock a b c d e) 8 = [a, b, c, d, e] := by
  simp [packBytes, encBlock]
  omega

/-- A full 8-character quantum of valid characters decodes to its five bytes
and leaves the rest of the input untouched. -/
theorem decodeQuantum_full {a b c d e : Nat} (ha : a < 256) (hbb : b < 256) (hc : c < 256)
    (hd : d < 256) (he : e < 256) (src : Bytes) :
    decodeQuantum 8 [] ((encBlock a b c d e).map b32char ++ src) =
      some ([a, b, c, d, e], src, false) := by
  have hlen : (encBlock a b c d e).length = 8 := by simp [encBlock]
  have := decodeQuantum_steps (encBlock a b c d e) (encBlock_mem_lt ha hbb hc hd he) 0 [] src
  rw [hlen] at this
  rw [show (8 : Nat) = 8 + 0 from rfl, this]
  show some (packBytes (encBlock a b c d e).reverse.reverse 8, src, false) = _
  rw [List.reverse_reverse, packBytes_encBlock ha hbb hc hd he]

/-- After collecting a partial quantum, a run of pad characters ends the
decode with the partial bytes. -/
theorem decodeQuantum_pads (k : Nat) (dbuf : List Nat) (h2 : 2 ≤ dbuf.length)
    (h7 : dbuf.length ≤ 7) (h8 : dbuf.length + k = 8)
    (h3 : dbuf.length ≠ 3) (h6 : dbuf.length ≠ 6) :
    decodeQuantum k dbuf (List.replicate k 61) =
      some (packBytes dbuf.reverse dbuf.length, [], true) := by
  obtain ⟨k2, rfl⟩ : ∃ k2, k = k2 + 1 := ⟨k - 1, by omega⟩
  rw [List.replicate_succ]
  show decodeQuantum (k2 + 1) dbuf (61 :: List.replicate k2 61) = _
  have hcond : (61 : Nat) = 61 ∧ 2 ≤ dbuf.length ∧ (List.replicate k2 61).length < 8 := by
    refine ⟨rfl, h2, ?_⟩
    simp
    omega
  have hlen7 : ¬ ((List.replicate k2 61 : Bytes).length + dbuf.length < 7) := by
    simp
    omega
  have hchk : checkPads (List.replicate k2 61) (7 - dbuf.length) = true := by
    have : 7 - dbuf.length = k2 := by omega
    rw [this]
    exact checkPads_replicate k2
  have h36 : ¬ (dbuf.length = 3 ∨ dbuf.length = 6) := by
    rintro (h | h)
    · exact h3 h
    · exact h6 h
  rw [show decodeQuantum (k2 + 1) dbuf (61 :: List.replicate k2 61) =
    if (61 : Nat) = 61 ∧ 2 ≤ dbuf.length ∧ (List.replicate k2 61).length < 8 then
      (if (List.replicate k2 61 : Bytes).length + dbuf.length < 7 then none
       else if ¬ checkPads (List.replicate k2 61) (7 - dbuf.length) then none
       else if dbuf.length = 3 ∨ dbuf.length = 6 then none
       else some (packBytes dbuf.reverse dbuf.length, [], true))
    else
      if b32val 61 = 255 then none
      else decodeQuantum k2 (b32val 61 :: dbuf) (List.replicate k2 61)
    from rfl, if_pos hcond, if_neg hlen7, if_neg (by simp [hchk]), if_neg h36]

theorem packBytes_tail1 {a : Nat} (ha : a < 256) :
    packBytes ((encBlock a 0 0 0 0).take 2) 2 = [a] := by
  simp [packBytes, encBlock]
  omega

theorem packBytes_tail2 {a b : Nat} (ha : a < 256) (hbb : b < 256) :
    packBytes ((encBlock a b 0 0 0).take 4) 4 = [a, b] := by
  simp [packBytes, encBlock]
  omega

theorem packBytes_tail3 {a b c : Nat} (ha : a < 256) (hbb : b < 256) (hc : c < 256) :
    packBytes ((encBlock a b c 0 0).take 5) 5 = [a, b, c] := by
  simp [packBytes, encBlock]
  omega

theorem packBytes_tail4 {a b c d : Nat} (ha : a < 256) (hbb : b < 256) (hc : c < 256)
    (hd : d < 256) : packBytes ((encBlock a b c d 0).take 7) 7 = [a, b, c, d] := by
  simp [packBytes, encBlock]
  omega

/-- A final partial quantum (stripped characters plus the re-appended pads)
decodes to the original partial bytes and ends the input. -/
theorem decodeQuantum_tail {l : Bytes} {k : Nat} (hl : l ≠ []) (hlen : l.length ≤ 4)
    (hb : ∀ x ∈ l, x < 256) (hk : (encNoPad l).length + k = 8) :
    decodeQuantum 8 [] (encNoPad l ++ List.replicate k 61) = some (l, [], true) := by
  rcases l with _ | ⟨a, _ | ⟨b, _ | ⟨c, _ | ⟨d, _ | ⟨e, rest⟩⟩⟩⟩⟩
  · exact absurd rfl hl
  · have ha : a < 256 := hb a (by simp)
    have hmem : ∀ v ∈ (encBlock a 0 0 0 0).take 2, v < 32 :=
      fun v hv => encBlock_mem_lt ha (by omega) (by omega) (by omega) (by omega) v
        (List.mem_of_mem_take hv)
    have hlen2 : ((encBlock a 0 0 0 0).take 2).length = 2 := by simp [encBlock]
    have hk6 : k = 6 := by
      have : (encNoPad [a]).length = 2 := by simp [encNoPad, encBlock]
      omega
    subst hk6
    have hsteps := decodeQuantum_steps ((encBlock a 0 0 0 0).take 2) hmem 6 []
      (List.replicate 6 61)
    rw [hlen2] at hsteps
    show decodeQuantum (2 + 6) []
      (((encBlock a 0 0 0 0).take 2).map b32char ++ List.replicate 6 61) = some ([a], [], true)
    rw [hsteps, List.append_nil,
      decodeQuantum_pads 6 ((encBlock a 0 0 0 0).take 2).reverse (by simp [hlen2])
        (by simp [hlen2]) (by simp [hlen2]) (by simp [hlen2]) (by simp [hlen2]),
      List.reverse_reverse, List.length_reverse, hlen2, packBytes_tail1 ha]
  · have ha : a < 256 := hb a (by simp)
    have hb2 : b < 256 := hb b (by simp)
    have hmem : ∀ v ∈ (encBlock a b 0 0 0).take 4, v < 32 :=
      fun v hv => encBlock_mem_lt ha hb2 (by omega) (by omega) (by omega) v
        (List.mem_of_mem_take hv)
    have hlen2 : ((encBlock a b 0 0 0).take 4).length = 4 := by simp [encBlock]
    have hk6 : k = 4 := by
      have : (encNoPad [a, b]).length = 4 := by simp [encNoPad, encBlock]
      omega
    subst hk6
    have hsteps := decodeQuantum_steps ((encBlock a b 0 0 0).take 4) hmem 4 []
      (List.replicate 4 61)
    rw [hlen2] at hsteps
    show decodeQuantum (4 + 4) []
      (((encBlock a b 0 0 0).take 4).map b32char ++ List.replicate 4 61) = some ([a, b], [], true)
    rw [hsteps, List.append_nil,
      decodeQuantum_pads 4 ((encBlock a b 0 0 0).take 4).reverse (by simp [hlen2])
        (by simp [hlen2]) (by simp [hlen2]) (by simp [hlen2]) (by simp [hlen2]),
      List.reverse_reverse, List.length_reverse, hlen2, packBytes_tail2 ha hb2]
  · have ha : a < 256 := hb a (by simp)
    have hb2 : b < 256 := hb b (by simp)
    have hc : c < 256 := hb c (by simp)
    have hmem : ∀ v ∈ (encBlock a b c 0 0).take 5, v < 32 :=
      fun v hv => encBlock_mem_lt ha hb2 hc (by omega) (by omega) v
        (List.mem_of_mem_take hv)
    have hlen2 : ((encBlock a b c 0 0).take 5).length = 5 := by simp [encBlock]
    have hk6 : k = 3 := by
      have : (encNoPad [a, b, c]).length = 5 := by simp [encNoPad, encBlock]
      omega
    subst hk6
    have hsteps := decodeQuantum_steps ((encBlock a b c 0 0).take 5) hmem 3 []
      (List.replicate 3 61)
    rw [hlen2] at hsteps
    show decodeQuantum (5 + 3) []
      (((encBlock a b c 0 0).take 5).map b32char ++ List.replicate 3 61) = some ([a, b, c], [], true)
    rw [hsteps, List.append_nil,
      decodeQuantum_pads 3 ((encBlock a b c 0 0).take 5).reverse (by simp [hlen2])
        (by simp [hlen2]) (by simp [hlen2]) (by simp [hlen2]) (by simp [hlen2]),
      List.reverse_reverse, List.length_reverse, hlen2, packBytes_tail3 ha hb2 hc]
  · have ha : a < 256 := hb a (by simp)
    have hb2 : b < 256 := hb b (by simp)
    have hc : c < 256 := hb c (by simp)
    have hd : d < 256 := hb d (by simp)
    have hmem : ∀ v ∈ (encBlock a b c d 0).take 7, v < 32 :=
      fun v hv => encBlock_mem_lt ha hb2 hc hd (by omega) v
        (List.mem_of_mem_take hv)
    have hlen2 : ((encBlock a b c d 0).take 7).length = 7 := by simp [encBlock]
    have hk6 : k = 1 := by
      have : (encNoPad [a, b, c, d]).length = 7 := by simp [encNoPad, encBlock]
      omega
    subst hk6
    have hsteps := decodeQuantum_steps ((encBlock a b c d 0).take 7) hmem 1 []
      (List.replicate 1 61)
    rw [hlen2] at hsteps
    show decodeQuantum (7 + 1) []
      (((encBlock a b c d 0).take 7).map b32char ++ List.replicate 1 61) =
        some ([a, b, c, d], [], true)
    rw [hsteps, List.append_nil,
      decodeQuantum_pads 1 ((encBlock a b c d 0).take 7).reverse (by simp [hlen2])
        (by simp [hlen2]) (by simp [hlen2]) (by simp [hlen2]) (by simp [hlen2]),
      List.reverse_reverse, List.length_reverse, hlen2, packBytes_tail4 ha hb2 hc hd]
  · simp at hlen

/-- A pad character with no values collected yet is a corrupt input. -/
theorem decodeQuantum_pad_first (f : Nat) (rest : Bytes) :
    decodeQuantum (f + 1) [] (61 :: rest) = none := by
  have hcond : ¬ ((61 : Nat) = 61 ∧ 2 ≤ ([] : List Nat).length ∧ rest.length < 8) := by
    simp
  rw [show decodeQuantum (f + 1) [] (61 :: rest) =
    if (61 : Nat) = 61 ∧ 2 ≤ ([] : List Nat).length ∧ rest.length < 8 then
      (if rest.length + ([] : List Nat).length < 7 then none
       else if ¬ checkPads rest (7 - ([] : List Nat).length) then none
       else if ([] : List Nat).length = 3 ∨ ([] : List Nat).length = 6 then none
       else some (packBytes ([] : List Nat).reverse ([] : List Nat).length, [], true))
    else
      if b32val 61 = 255 then none
      else decodeQuantum f (b32val 61 :: []) rest
    from rfl, if_neg hcond, if_pos (by decide)]

/-- A full quantum prepended to the input peels off one decoder iteration. -/
theorem decodeBlocks_full_step (fuel : Nat) {a b c d e : Nat} (ha : a < 256) (hbb : b < 256)
    (hc : c < 256) (hd : d < 256) (he : e < 256) (rest : Bytes) :
    decodeBlocks (fuel + 1) ((encBlock a b c d e).map b32char ++ rest) =
      match decodeBlocks fuel rest with
      | none => none
      | some more => some ([a, b, c, d, e] ++ more) := by
  have hne : ¬ ((encBlock a b c d e).map b32char ++ rest).isEmpty = true := by
    simp [encBlock]
  rw [show decodeBlocks (fuel + 1) ((encBlock a b c d e).map b32char ++ rest) =
    (if ((encBlock a b c d e).map b32char ++ rest).isEmpty then some []
     else
       match decodeQuantum 8 [] ((encBlock a b c d e).map b32char ++ rest) with
       | none => none
       | some (bytes, rest2, ended) =>
         if ended then some bytes
         else
           match decodeBlocks fuel rest2 with
           | none => none
           | some more => some (bytes ++ more)) from rfl,
    if_neg hne, decodeQuantum_full ha hbb hc hd he rest]
  rfl

/-- Round trip of the repository codec at byte lengths that are not multiples
of five: the stripped encoding plus the re-appended pads decodes back. -/
theorem decodeBlocks_roundtrip : ∀ fuel l, (∀ x ∈ l, x < 256) → l.length % 5 ≠ 0 →
    l.length ≤ 5 * fuel →
    decodeBlocks (fuel + 1)
      (encNoPad l ++ List.replicate (8 - (encNoPad l).length % 8) 61) = some l := by
  intro fuel
  induction fuel with
  | zero =>
    intro l hb h5 hlen
    interval_cases hl : l.length
    · omega
  | succ fuel ih =>
    intro l hb h5 hlen
    rcases l with _ | ⟨a, _ | ⟨b, _ | ⟨c, _ | ⟨d, _ | ⟨e, rest⟩⟩⟩⟩⟩
    · simp at h5
    · have htail := decodeQuantum_tail (l := [a]) (by simp) (by simp) hb
        (k := 8 - (encNoPad [a]).length % 8) (by simp [encNoPad, encBlock])
      have hne : ¬ (encNoPad [a] ++
          List.replicate (8 - (encNoPad [a]).length % 8) 61).isEmpty = true := by
        simp [encNoPad, encBlock]
      rw [show ∀ src : Bytes, decodeBlocks (fuel + 1 + 1) src =
        (if src.isEmpty then some []
         else
           match decodeQuantum 8 [] src with
           | none => none
           | some (bytes, rest2, ended) =>
             if ended then some bytes
             else
               match decodeBlocks (fuel + 1) rest2 with
               | none => none
               | some more => some (bytes ++ more)) from fun _ => rfl,
        if_neg hne, htail]
      rfl
    · have htail := decodeQuantum_tail (l := [a, b]) (by simp) (by simp) hb
        (k := 8 - (encNoPad [a, b]).length % 8) (by simp [encNoPad, encBlock])
      have hne : ¬ (encNoPad [a, b] ++
          List.replicate (8 - (encNoPad [a, b]).length % 8) 61).isEmpty = true := by
        simp [encNoPad, encBlock]
      rw [show ∀ src : Bytes, decodeBlocks (fuel + 1 + 1) src =
        (if src.isEmpty then some []
         else
           match decodeQuantum 8 [] src with
           | none => none
           | some (bytes, rest2, ended) =>
             if ended then some bytes
             else
               match decodeBlocks (fuel + 1) rest2 with
               | none => none
               | some more => some (bytes ++ more)) from fun _ => rfl,
        if_neg hne, htail]
      rfl
    · have htail := decodeQuantum_tail (l := [a, b, c]) (by simp) (by simp) hb
        (k := 8 - (encNoPad [a, b, c]).length % 8) (by simp [encNoPad, encBlock])
      have hne : ¬ (encNoPad [a, b, c] ++
          List.replicate (8 - (encNoPad [a, b, c]).length % 8) 61).isEmpty = true := by
        simp [encNoPad, encBlock]
      rw [show ∀ src : Bytes, decodeBlocks (fuel + 1 + 1) src =
        (if src.isEmpty then some []
         else
           match decodeQuantum 8 [] src with
           | none => none
           | some (bytes, rest2, ended) =>
             if ended then some bytes
             else
               match decodeBlocks (fuel + 1) rest2 with
               | none => none
               | some more => some (bytes ++ more)) from fun _ => rfl,
        if_neg hne, htail]
      rfl
    · have htail := decodeQuantum_tail (l := [a, b, c, d]) (by simp) (by simp) hb
        (k := 8 - (encNoPad [a, b, c, d]).length % 8) (by simp [encNoPad, encBlock])
      have hne : ¬ (encNoPad [a, b, c, d] ++
          List.replicate (8 - (encNoPad [a, b, c, d]).length % 8) 61).isEmpty = true := by
        simp [encNoPad, encBlock]
      rw [show ∀ src : Bytes, decodeBlocks (fuel + 1 + 1) src =
        (if src.isEmpty then some []
         else
           match decodeQuantum 8 [] src with
           | none => none
           | some (bytes, rest2, ended) =>
             if ended then some bytes
             else
               match decodeBlocks (fuel + 1) rest2 with
               | none => none
               | some more => some (bytes ++ more)) from fun _ => rfl,
        if_neg hne, htail]
      rfl
    · have ha : a < 256 := hb a (by simp)
      have hb2 : b < 256 := hb b (by simp)
      have hc : c < 256 := hb c (by simp)
      have hd : d < 256 := hb d (by simp)
      have he : e < 256 := hb e (by simp)
      have hbrest : ∀ x ∈ rest, x < 256 := fun x hx => hb x (by simp [hx])
      have h5rest : rest.length % 5 ≠ 0 := by
        intro h
        apply h5
        simp only [List.length_cons]
        omega
      have hlenrest : rest.length ≤ 5 * fuel := by
        simp only [List.length_cons] at hlen
        omega
      have hmod : (8 - (encNoPad (a :: b :: c :: d :: e :: rest)).length % 8) =
          (8 - (encNoPad rest).length % 8) := by
        have : (encNoPad (a :: b :: c :: d :: e :: rest)).length =
            8 + (encNoPad rest).length := by
          show ((encBlock a b c d e).map b32char ++ encNoPad rest).length = _
          simp [encBlock]
          omega
        rw [this]
        omega
      rw [hmod]
      show decodeBlocks (fuel + 1 + 1)
        ((encBlock a b c d e).map b32char ++ encNoPad rest ++
          List.replicate (8 - (encNoPad rest).length % 8) 61) = _
      rw [List.append_assoc, decodeBlocks_full_step (fuel + 1) ha hb2 hc hd he,
        ih rest hbrest h5rest hlenrest]
      rfl

/-- When the byte length is a multiple of five the stripped encoding is a
multiple of eight characters, the repository decoder appends a full block of
eight pads, and decoding fails on the pad at position zero of a quantum. -/
theorem decodeBlocks_mul5 : ∀ fuel l, (∀ x ∈ l, x < 256) → l.length % 5 = 0 →
    l.length ≤ 5 * fuel →
    decodeBlocks (fuel + 1) (encNoPad l ++ List.replicate 8 61) = none := by
  have base : decodeBlocks 1 (List.replicate 8 61) = none := by
    have hne : ¬ (List.replicate 8 61 : Bytes).isEmpty = true := by simp
    rw [show decodeBlocks 1 (List.replicate 8 61) =
      (if (List.replicate 8 61 : Bytes).isEmpty then some []
       else
         match decodeQuantum 8 [] (List.replicate 8 61) with
         | none => none
         | some (bytes, rest2, ended) =>
           if ended then some bytes
           else
             match decodeBlocks 0 rest2 with
             | none => none
             | some more => some (bytes ++ more)) from rfl, if_neg hne]
    rw [show (List.replicate 8 61 : Bytes) = 61 :: List.replicate 7 61 from rfl,
      decodeQuantum_pad_first 7]
  intro fuel
  induction fuel with
  | zero =>
    intro l hb h5 hlen
    interval_cases hl : l.length
    · have : l = [] := List.eq_nil_of_length_eq_zero hl
      subst this
      show decodeBlocks 1 (List.replicate 8 61) = none
      exact base
  | succ fuel ih =>
    intro l hb h5 hlen
    rcases l with _ | ⟨a, _ | ⟨b, _ | ⟨c, _ | ⟨d, _ | ⟨e, rest⟩⟩⟩⟩⟩
    · show decodeBlocks (fuel + 1 + 1) (List.replicate 8 61) = none
      have hne : ¬ (List.replicate 8 61 : Bytes).isEmpty = true := by simp
      rw [show decodeBlocks (fuel + 1 + 1) (List.replicate 8 61) =
        (if (List.replicate 8 61 : Bytes).isEmpty then some []
         else
           match decodeQuantum 8 [] (List.replicate 8 61) with
           | none => none
           | some (bytes, rest2, ended) =>
             if ended then some bytes
             else
               match decodeBlocks (fuel + 1) rest2 with
               | none => none
               | some more => some (bytes ++ more)) from rfl, if_neg hne]
      rw [show (List.replicate 8 61 : Bytes) = 61 :: List.replicate 7 61 from rfl,
        decodeQuantum_pad_first 7]
    · simp at h5
    · simp at h5
    · simp at h5
    · simp at h5
    · have ha : a < 256 := hb a (by simp)
      have hb2 : b < 256 := hb b (by simp)
      have hc : c < 256 := hb c (by simp)
      have hd : d < 256 := hb d (by simp)
      have he : e < 256 := hb e (by simp)
      have hbrest : ∀ x ∈ rest, x < 256 := fun x hx => hb x (by simp [hx])
      have h5rest : rest.length % 5 = 0 := by
        simp only [List.length_cons] at h5
        omega
      have hlenrest : rest.length ≤ 5 * fuel := by
        simp only [List.length_cons] at hlen
        omega
      show decodeBlocks (fuel + 1 + 1)
        ((encBlock a b c d e).map b32char ++ encNoPad rest ++ List.replicate 8 61) = none
      rw [List.append_assoc, decodeBlocks_full_step (fuel + 1) ha hb2 hc hd he,
        ih rest hbrest h5rest hlenrest]

theorem tailChars_ge : ∀ r < 5, r ≤ tailChars r := by decide

theorem length_le_encNoPad (l : Bytes) : l.length ≤ (encNoPad l).length := by
  rw [encNoPad_length]
  have hr : l.length % 5 < 5 := Nat.mod_lt _ (by omega)
  have := tailChars_ge (l.length % 5) hr
  have := Nat.div_add_mod l.length 5
  omega

theorem stripNewlines_eq_self {s : Bytes} (h : ∀ x ∈ s, x ≠ 10 ∧ x ≠ 13) :
    stripNewlines s = s := by
  unfold stripNewlines
  rw [List.filter_eq_self]
  intro a ha
  have := h a ha
  simp
  omega

/-- The repository codec round-trips exactly at byte lengths that are not
multiples of five; at multiples of five (including the empty string) the
re-padded string has a full extra block of pads and decoding fails. -/
theorem decodeFromString_encodeToString (l : Bytes) (hb : ∀ x ∈ l, x < 256) :
    decodeFromString (encodeToString l) = if l.length % 5 = 0 then none else some l := by
  rw [encodeToString_eq]
  show base32DecodeString (encNoPad l ++ List.replicate (8 - (encNoPad l).length % 8) 61) = _
  unfold base32DecodeString
  have hchars : ∀ x ∈ encNoPad l ++ List.replicate (8 - (encNoPad l).length % 8) 61,
      x ≠ 10 ∧ x ≠ 13 := by
    intro x hx
    rcases List.mem_append.mp hx with hx | hx
    · rcases mem_encNoPad l hx with ⟨v, rfl⟩
      rcases b32char_range v with h | h | h <;> omega
    · have := List.eq_of_mem_replicate hx
      omega
  rw [stripNewlines_eq_self hchars]
  by_cases h5 : l.length % 5 = 0
  · have hmod : (encNoPad l).length % 8 = 0 := by
      rw [encNoPad_length, h5]
      have : tailChars 0 = 0 := rfl
      rw [this]
      omega
    rw [hmod, if_pos h5]
    have hlen : l.length ≤ 5 * (encNoPad l ++ List.replicate (8 - 0) 61).length := by
      have h1 := length_le_encNoPad l
      simp only [List.length_append, List.length_replicate]
      omega
    exact decodeBlocks_mul5 _ l hb h5 hlen
  · rw [if_neg h5]
    have hlen : l.length ≤
        5 * (encNoPad l ++ List.replicate (8 - (encNoPad l).length % 8) 61).length := by
      have h1 := length_le_encNoPad l
      simp only [List.length_append, List.length_replicate]
      omega
    exact decodeBlocks_roundtrip _ l hb h5 hlen

/-! ## Positional digit lemmas (for the ULID renderings) -/

theorem foldl_undigits (base : Nat) : ∀ ds a,
    ds.foldl (fun x y => x * base + y) a = a * base ^ ds.length + undigits base ds := by
  intro ds
  induction ds with
  | nil => intro a; simp [undigits]
  | cons d ds ih =>
    intro a
    show ds.foldl _ (a * base + d) = _
    rw [ih (a * base + d)]
    have h2 : undigits base (d :: ds) = d * base ^ ds.length + undigits base ds := by
      show ds.foldl _ (0 * base + d) = _
      rw [ih (0 * base + d)]
      ring
    rw [h2, List.length_cons, pow_succ]
    ring

theorem undigits_lt (base : Nat) (hb : 1 ≤ base) : ∀ ds : List Nat,
    (∀ d ∈ ds, d < base) → undigits base ds < base ^ ds.length := by
  intro ds
  induction ds with
  | nil => intro _; simp [undigits]
  | cons d ds ih =>
    intro h
    have hd : d < base := h d (List.mem_cons_self d ds)
    have hrest := ih (fun x hx => h x (List.mem_cons_of_mem d hx))
    have hcons : undigits base (d :: ds) = d * base ^ ds.length + undigits base ds := by
      show ds.foldl _ (0 * base + d) = _
      rw [foldl_undigits base ds (0 * base + d)]
      ring
    rw [hcons, List.length_cons, pow_succ]
    calc d * base ^ ds.length + undigits base ds
        < d * base ^ ds.length + base ^ ds.length := by omega
      _ = (d + 1) * base ^ ds.length := by ring
      _ ≤ base * base ^ ds.length := by
          have : d + 1 ≤ base := hd
          exact Nat.mul_le_mul_right _ this
      _ = base ^ ds.length * base := by ring

theorem beDigits_succ (base k N : Nat) :
    beDigits base (k + 1) N = (N / base ^ k % base) :: beDigits base k N := by
  unfold beDigits
  rw [List.range_succ_eq_map, List.map_cons, List.map_map]
  have h0 : k + 1 - 1 - 0 = k := by omega
  simp only [h0]
  congr 1
  apply List.map_congr_left
  intro i hi
  show N / base ^ (k + 1 - 1 - (i + 1)) % base = N / base ^ (k - 1 - i) % base
  have h1 : k + 1 - 1 - (i + 1) = k - 1 - i := by omega
  rw [h1]

theorem length_beDigits (base k N : Nat) : (beDigits base k N).length = k := by
  simp [beDigits]

theorem mem_beDigits_lt {base : Nat} (hb : 0 < base) (k N : Nat) :
    ∀ d ∈ beDigits base k N, d < base := by
  intro d hd
  rcases List.mem_map.mp hd with ⟨i, _, rfl⟩
  exact Nat.mod_lt _ hb

/-- Positional digits below index `k` only depend on the value modulo
`base ^ k`. -/
theorem digit_mod {base : Nat} (hb : 0 < base) {k j : Nat} (hj : j < k) (N : Nat) :
    (N % base ^ k) / base ^ j % base = N / base ^ j % base := by
  obtain ⟨q, r, hN, hrlt⟩ : ∃ q r, N = base ^ k * q + r ∧ r < base ^ k :=
    ⟨N / base ^ k, N % base ^ k, (Nat.div_add_mod N (base ^ k)).symm,
      Nat.mod_lt _ (Nat.pos_pow_of_pos k hb)⟩
  have hmod : N % base ^ k = r := by
    rw [hN, Nat.mul_add_mod, Nat.mod_eq_of_lt hrlt]
  rw [hmod, hN]
  have h1 : base ^ k * q = base ^ j * (base ^ (k - j) * q) := by
    rw [← mul_assoc, ← pow_add]
    congr 2
    omega
  rw [h1, Nat.mul_add_div (Nat.pos_pow_of_pos j hb)]
  have h2 : base ^ (k - j) * q = base * (base ^ (k - j - 1) * q) := by
    rw [← mul_assoc, ← pow_succ']
    congr 2
    omega
  rw [h2, Nat.mul_add_mod]

theorem beDigits_mod {base : Nat} (hb : 0 < base) (k N : Nat) :
    beDigits base k (N % base ^ k) = beDigits base k N := by
  unfold beDigits
  apply List.map_congr_left
  intro i hi
  have hik : i < k := List.mem_range.mp hi
  exact digit_mod hb (by omega) N

theorem undigits_beDigits {base : Nat} (hb : 1 ≤ base) :
    ∀ k N, N < base ^ k → undigits base (beDigits base k N) = N := by
  intro k
  induction k with
  | zero =>
    intro N hN
    simp [pow_zero] at hN
    simp [beDigits, undigits, hN]
  | succ k ih =>
    intro N hN
    rw [beDigits_succ, ← beDigits_mod (by omega) k N]
    have hdiv : N / base ^ k < base := by
      rw [Nat.div_lt_iff_lt_mul (Nat.pos_pow_of_pos k (by omega))]
      calc N < base ^ (k + 1) := hN
        _ = base * base ^ k := by rw [pow_succ]; ring
    have hd : N / base ^ k % base = N / base ^ k := Nat.mod_eq_of_lt hdiv
    have hcons : undigits base (N / base ^ k % base :: beDigits base k (N % base ^ k)) =
        (N / base ^ k % base) * base ^ (beDigits base k (N % base ^ k)).length +
          undigits base (beDigits base k (N % base ^ k)) := by
      show (beDigits base k (N % base ^ k)).foldl _ (0 * base + N / base ^ k % base) = _
      rw [foldl_undigits]
      ring
    rw [hcons, length_beDigits,
      ih (N % base ^ k) (Nat.mod_lt _ (Nat.pos_pow_of_pos k (by omega))), hd]
    exact Nat.div_add_mod' N (base ^ k)

theorem beDigits_undigits {base : Nat} (hb : 1 ≤ base) :
    ∀ ds : List Nat, (∀ d ∈ ds, d < base) → beDigits base ds.length (undigits base ds) = ds := by
  intro ds
  induction ds with
  | nil => intro _; simp [beDigits]
  | cons d ds ih =>
    intro h
    have hd : d < base := h d (List.mem_cons_self d ds)
    have hrest : ∀ x ∈ ds, x < base := fun x hx => h x (List.mem_cons_of_mem d hx)
    have hR := undigits_lt base hb ds hrest
    have hcons : undigits base (d :: ds) = d * base ^ ds.length + undigits base ds := by
      show ds.foldl _ (0 * base + d) = _
      rw [foldl_undigits]
      ring
    rw [List.length_cons, beDigits_succ, hcons]
    have hdig : (d * base ^ ds.length + undigits base ds) / base ^ ds.length % base = d := by
      have hrw : d * base ^ ds.length + undigits base ds =
          base ^ ds.length * d + undigits base ds := by ring
      rw [hrw, Nat.mul_add_div (Nat.pos_pow_of_pos _ (by omega)),
        Nat.div_eq_of_lt hR, Nat.add_zero, Nat.mod_eq_of_lt hd]
    have htail : beDigits base ds.length (d * base ^ ds.length + undigits base ds) =
        beDigits base ds.length (undigits base ds) := by
      rw [← beDigits_mod (by omega) ds.length (d * base ^ ds.length + undigits base ds)]
      congr 1
      rw [show d * base ^ ds.length + undigits base ds =
        undigits base ds + d * base ^ ds.length from by ring,
        Nat.add_mul_mod_self_right, Nat.mod_eq_of_lt hR]
    rw [hdig, htail, ih hrest]

/-! ## ULID lemmas -/

theorem bytesToNat_lt {u : Bytes} (h16 : u.length = 16) (hb : ∀ x ∈ u, x < 256) :
    bytesToNat u < 2 ^ 128 := by
  have := undigits_lt 256 (by omega) u hb
  rw [h16] at this
  calc bytesToNat u < 256 ^ 16 := this
    _ = 2 ^ 128 := by norm_num

theorem natToBytes16_bytesToNat {u : Bytes} (h16 : u.length = 16) (hb : ∀ x ∈ u, x < 256) :
    natToBytes16 (bytesToNat u) = u := by
  have := beDigits_undigits (by omega : (1 : Nat) ≤ 256) u hb
  rw [h16] at this
  exact this

theorem bytesToNat_natToBytes16 {N : Nat} (h : N < 2 ^ 128) :
    bytesToNat (natToBytes16 N) = N := by
  apply undigits_beDigits (by omega : 1 ≤ 256)
  calc N < 2 ^ 128 := h
    _ = 256 ^ 16 := by norm_num

theorem length_natToBytes16 (N : Nat) : (natToBytes16 N).length = 16 :=
  length_beDigits 256 16 N

theorem mem_natToBytes16_lt (N : Nat) : ∀ x ∈ natToBytes16 N, x < 256 :=
  mem_beDigits_lt (by omega) 16 N

theorem crockChar_facts : ∀ w < 32, crockChar w ≠ 45 ∧ crockVal (crockChar w) = w := by
  decide

theorem crockChar_ne45 (v : Nat) : crockChar v ≠ 45 := by
  rcases Nat.lt_or_ge v 32 with h | h
  · exact (crockChar_facts v h).1
  · have hlen : crockAlphabet.length ≤ v := by
      simp only [crockAlphabet]
      simpa using h
    simp [crockChar, List.getD, List.getElem?_eq_none hlen]

theorem crockChar_le55 : ∀ w < 8, crockChar w ≤ 55 := by decide

theorem ulidString_length (u : ULID) : (ulidString u).length = 26 := by
  simp [ulidString, length_beDigits]

theorem ulidString_no45 (u : ULID) : ∀ x ∈ ulidString u, x ≠ 45 := by
  intro x hx
  rcases List.mem_map.mp hx with ⟨v, _, rfl⟩
  exact crockChar_ne45 v

/-- `ParseStrict` inverts `String()` on well-formed 16-byte ULIDs. -/
theorem parseStrict_ulidString {u : ULID} (h16 : u.length = 16) (hb : ∀ x ∈ u, x < 256) :
    parseStrict (ulidString u) = some u := by
  have hN : bytesToNat u < 2 ^ 128 := bytesToNat_lt h16 hb
  have hdigs : ∀ d ∈ beDigits 32 26 (bytesToNat u), d < 32 :=
    mem_beDigits_lt (by omega) 26 (bytesToNat u)
  have hall : (ulidString u).all (fun c => crockVal c != 255) = true := by
    rw [List.all_eq_true]
    intro c hc
    rcases List.mem_map.mp hc with ⟨v, hv, rfl⟩
    have hv32 := hdigs v hv
    have hvc := (crockChar_facts v hv32).2
    simp [hvc]
    omega
  have hhead : (ulidString u).headD 0 ≤ 55 := by
    have hsucc : beDigits 32 26 (bytesToNat u) =
        (bytesToNat u / 32 ^ 25 % 32) :: beDigits 32 25 (bytesToNat u) := beDigits_succ 32 25 _
    have hd0 : bytesToNat u / 32 ^ 25 < 8 := by
      rw [Nat.div_lt_iff_lt_mul (by norm_num : 0 < (32 : Nat) ^ 25)]
      calc bytesToNat u < 2 ^ 128 := hN
        _ = 8 * 32 ^ 25 := by norm_num
    have hmod : bytesToNat u / 32 ^ 25 % 32 = bytesToNat u / 32 ^ 25 :=
      Nat.mod_eq_of_lt (by omega)
    show ((beDigits 32 26 (bytesToNat u)).map crockChar).headD 0 ≤ 55
    rw [hsucc, List.map_cons, List.headD_cons, hmod]
    exact crockChar_le55 _ hd0
  have hvals : (ulidString u).map crockVal = beDigits 32 26 (bytesToNat u) := by
    show ((beDigits 32 26 (bytesToNat u)).map crockChar).map crockVal = _
    rw [List.map_map]
    have : ∀ d ∈ beDigits 32 26 (bytesToNat u), (crockVal ∘ crockChar) d = id d := by
      intro d hd
      simp [Function.comp_apply, (crockChar_facts d (hdigs d hd)).2]
    rw [List.map_congr_left this, List.map_id]
  rw [parseStrict, if_pos (ulidString_length u), if_pos hall, if_pos hhead, hvals]
  have hlt : bytesToNat u < 32 ^ 26 := by
    calc bytesToNat u < 2 ^ 128 := hN
      _ ≤ 32 ^ 26 := by norm_num
  rw [undigits_beDigits (by omega) 26 (bytesToNat u) hlt, natToBytes16_bytesToNat h16 hb]

theorem bytesToNat_zeroULID : bytesToNat zeroULID = 0 := by decide

/-- `ulid.Make()` at a positive timestamp is never the zero ULID. -/
theorem ulidMake_ne_zero {ts : Nat} (ent : Nat) (hts : 0 < ts) (hlt : ts < 2 ^ 48) :
    IsZeroULID (ulidMake ts ent) = false := by
  have hval : ts % 2 ^ 48 * 2 ^ 80 + ent % 2 ^ 80 < 2 ^ 128 := by
    have h1 : ts % 2 ^ 48 = ts := Nat.mod_eq_of_lt hlt
    have h2 : ent % 2 ^ 80 < 2 ^ 80 := Nat.mod_lt _ (by norm_num)
    rw [h1]
    have h3 : ts * 2 ^ 80 ≤ (2 ^ 48 - 1) * 2 ^ 80 := by
      apply Nat.mul_le_mul_right
      omega
    calc ts * 2 ^ 80 + ent % 2 ^ 80 ≤ (2 ^ 48 - 1) * 2 ^ 80 + ent % 2 ^ 80 := by omega
      _ < (2 ^ 48 - 1) * 2 ^ 80 + 2 ^ 80 := by omega
      _ = 2 ^ 128 := by norm_num
  have hpos : 0 < ts % 2 ^ 48 * 2 ^ 80 + ent % 2 ^ 80 := by
    have h1 : ts % 2 ^ 48 = ts := Nat.mod_eq_of_lt hlt
    rw [h1]
    have : 2 ^ 80 ≤ ts * 2 ^ 80 := Nat.le_mul_of_pos_left _ hts
    omega
  rw [IsZeroULID]
  apply beq_eq_false_iff_ne.mpr
  intro heq
  have h0 : bytesToNat (ulidMake ts ent) = 0 := by
    rw [heq, bytesToNat_zeroULID]
  rw [ulidMake, bytesToNat_natToBytes16 hval] at h0
  omega

/-! ## Normalization lemmas -/

theorem head?_dropWhile_false {p : Nat → Bool} :
    ∀ l : Bytes, ∀ c, (l.dropWhile p).head? = some c → p c = false := by
  intro l
  induction l with
  | nil => intro c h; simp [List.dropWhile] at h
  | cons a t ih =>
    intro c h
    by_cases hp : p a
    · simp only [List.dropWhile, hp] at h
      exact ih c h
    · have hpf : p a = false := by simpa using hp
      simp only [List.dropWhile, hpf, List.head?_cons, Option.some_inj] at h
      subst h
      exact hpf

theorem dropWhile_eq_self_of_head? {p : Nat → Bool} {l : Bytes}
    (h : ∀ c, l.head? = some c → p c = false) : l.dropWhile p = l := by
  cases l with
  | nil => rfl
  | cons a t => exact dropWhile_of_head_false (h a rfl)

theorem prefix_head? {xs ys : Bytes} (h : xs <+: ys) (hne : xs ≠ []) :
    ys.head? = xs.head? := by
  rcases h with ⟨t, rfl⟩
  rcases xs with _ | ⟨c, r⟩
  · exact absurd rfl hne
  · simp

theorem trimSpace_clean_head (s : Bytes) :
    ∀ c, (trimSpace s).head? = some c → isAsciiSpace c = false := by
  intro c hc
  unfold trimSpace at hc
  set w := s.dropWhile isAsciiSpace with hw
  set z := w.reverse.dropWhile isAsciiSpace with hz
  have hsuf : z <:+ w.reverse := List.dropWhile_suffix _
  have hpre : z.reverse <+: w := by
    have := List.reverse_prefix.mpr hsuf
    rwa [List.reverse_reverse] at this
  have hne : z.reverse ≠ [] := by
    intro h
    rw [h] at hc
    simp at hc
  have := prefix_head? hpre hne
  rw [hc] at this
  exact head?_dropWhile_false s c this

theorem trimSpace_clean_tail (s : Bytes) :
    (trimSpace s).reverse.dropWhile isAsciiSpace = (trimSpace s).reverse := by
  unfold trimSpace
  rw [List.reverse_reverse]
  exact dropWhile_idem _

theorem trimSpace_idem (s : Bytes) : trimSpace (trimSpace s) = trimSpace s := by
  conv_lhs => rw [trimSpace]
  rw [dropWhile_eq_self_of_head? (trimSpace_clean_head s), trimSpace_clean_tail s,
    List.reverse_reverse]

theorem isAsciiSpace_toLowerByte (b : Nat) : isAsciiSpace (toLowerByte b) = isAsciiSpace b := by
  by_cases h : 65 ≤ b ∧ b ≤ 90
  · simp only [toLowerByte, if_pos h]
    have h1 : isAsciiSpace (b + 32) = false := by
      simp [isAsciiSpace]
      omega
    have h2 : isAsciiSpace b = false := by
      simp [isAsciiSpace]
      omega
    rw [h1, h2]
  · simp [toLowerByte, h]

theorem toLowerByte_idem (b : Nat) : toLowerByte (toLowerByte b) = toLowerByte b := by
  by_cases h : 65 ≤ b ∧ b ≤ 90
  · simp only [toLowerByte, if_pos h]
    rw [if_neg (by omega)]
  · simp [toLowerByte, h]

theorem trimSpace_map_toLower (s : Bytes) :
    trimSpace ((trimSpace s).map toLowerByte) = (trimSpace s).map toLowerByte := by
  have hfun : (fun x => isAsciiSpace (toLowerByte x)) = isAsciiSpace :=
    funext isAsciiSpace_toLowerByte
  show ((((trimSpace s).map toLowerByte).dropWhile
    isAsciiSpace).reverse.dropWhile isAsciiSpace).reverse = _
  rw [List.dropWhile_map, show isAsciiSpace ∘ toLowerByte =
      (fun x => isAsciiSpace (toLowerByte x)) from rfl, hfun,
    dropWhile_eq_self_of_head? (trimSpace_clean_head s), ← List.map_reverse,
    List.dropWhile_map, show isAsciiSpace ∘ toLowerByte =
      (fun x => isAsciiSpace (toLowerByte x)) from rfl, hfun,
    trimSpace_clean_tail s, List.map_reverse, List.reverse_reverse]

/-- Normalization is idempotent: the decoded e-mail of a challenge token is
already in normalized form. -/
theorem NormalizeEmail_idem (s : Bytes) : NormalizeEmail (NormalizeEmail s) = NormalizeEmail s := by
  unfold NormalizeEmail
  rw [trimSpace_map_toLower, List.map_map]
  apply List.map_congr_left
  intro b _
  exact toLowerByte_idem b

theorem mem_trimSpace_subset {s : Bytes} : ∀ x ∈ trimSpace s, x ∈ s := by
  intro x hx
  unfold trimSpace at hx
  rw [List.mem_reverse] at hx
  have h1 := (List.dropWhile_suffix (l := (s.dropWhile isAsciiSpace).reverse)
    (p := isAsciiSpace)).subset hx
  rw [List.mem_reverse] at h1
  exact (List.dropWhile_suffix (l := s) (p := isAsciiSpace)).subset h1

theorem NormalizeEmail_lt256 {s : Bytes} (h : ∀ x ∈ s, x < 256) :
    ∀ x ∈ NormalizeEmail s, x < 256 := by
  intro x hx
  rcases List.mem_map.mp hx with ⟨b, hb2, rfl⟩
  have := h b (mem_trimSpace_subset b hb2)
  unfold toLowerByte
  by_cases hbr : 65 ≤ b ∧ b ≤ 90
  · rw [if_pos hbr]; omega
  · rw [if_neg hbr]; omega

/-! ## Token structure lemmas -/

theorem encodeToString_no45 (l : Bytes) : (45 : Nat) ∉ encodeToString l := by
  rw [encodeToString_eq]
  intro h
  exact encNoPad_no45 45 h rfl

theorem ulidString_not_mem45 (u : ULID) : (45 : Nat) ∉ ulidString u := by
  intro h
  exact ulidString_no45 u 45 h rfl

theorem decodeFromString_roundtrip {l : Bytes} (hb : ∀ x ∈ l, x < 256)
    (h5 : l.length % 5 ≠ 0) : decodeFromString (encodeToString l) = some l := by
  rw [decodeFromString_encodeToString l hb, if_neg h5]

/-- Splitting a well-formed four-field token body recovers the fields. -/
theorem splitOnByte_token {p0 p1 p2 p3 : Bytes} (h0 : (45 : Nat) ∉ p0) (h1 : (45 : Nat) ∉ p1)
    (h2 : (45 : Nat) ∉ p2) (h3 : (45 : Nat) ∉ p3) :
    splitOnByte 45 (p0 ++ 45 :: (p1 ++ 45 :: (p2 ++ 45 :: p3))) = [p0, p1, p2, p3] := by
  rw [splitOnByte_append_cons h0, splitOnByte_append_cons h1, splitOnByte_append_cons h2,
    splitOnByte_of_not_mem h3]

/-- `VerifyChallenge` on a well-formed four-field token reduces to the
field-wise check. -/
theorem VerifyChallenge_split (H : HashModel) (mlc : AuthMagicLinkController) (now : Int)
    (fresh : ULID) {p0 p1 p2 p3 : Bytes} (h0 : (45 : Nat) ∉ p0) (h1 : (45 : Nat) ∉ p1)
    (h2 : (45 : Nat) ∉ p2) (h3 : (45 : Nat) ∉ p3) :
    VerifyChallenge H mlc now fresh (57 :: (p0 ++ 45 :: (p1 ++ 45 :: (p2 ++ 45 :: p3)))) =
      verifyChallengeFields H mlc now fresh p0 p1 p2 p3 := by
  rw [show VerifyChallenge H mlc now fresh
      (57 :: (p0 ++ 45 :: (p1 ++ 45 :: (p2 ++ 45 :: p3)))) =
    (match splitOnByte 45 (p0 ++ 45 :: (p1 ++ 45 :: (p2 ++ 45 :: p3))) with
     | [q0, q1, q2, q3] => verifyChallengeFields H mlc now fresh q0 q1 q2 q3
     | _ => .error .invalidChallenge) from rfl, splitOnByte_token h0 h1 h2 h3]

/-- `VerifySessionId` on a well-formed four-field token reduces to the
field-wise check. -/
theorem VerifySessionId_split (H : HashModel) (mlc : AuthMagicLinkController) (now : Int)
    {p0 p1 p2 p3 : Bytes} (h0 : (45 : Nat) ∉ p0) (h1 : (45 : Nat) ∉ p1)
    (h2 : (45 : Nat) ∉ p2) (h3 : (45 : Nat) ∉ p3) :
    VerifySessionId H mlc now (83 :: (p0 ++ 45 :: (p1 ++ 45 :: (p2 ++ 45 :: p3)))) =
      verifySessionIdFields H mlc now p0 p1 p2 p3 := by
  rw [show VerifySessionId H mlc now
      (83 :: (p0 ++ 45 :: (p1 ++ 45 :: (p2 ++ 45 :: p3)))) =
    (match splitOnByte 45 (p0 ++ 45 :: (p1 ++ 45 :: (p2 ++ 45 :: p3))) with
     | [q0, q1, q2, q3] => verifySessionIdFields H mlc now q0 q1 q2 q3
     | _ => .error .invalidSessionId) from rfl, splitOnByte_token h0 h1 h2 h3]

/-- One-step unfolding of `VerifyChallenge` on a non-empty string. -/
theorem VerifyChallenge_cons (H : HashModel) (mlc : AuthMagicLinkController) (now : Int)
    (fresh : ULID) (c0 : Nat) (body : Bytes) :
    VerifyChallenge H mlc now fresh (c0 :: body) =
      if c0 = 57 then
        (match splitOnByte 45 body with
         | [q0, q1, q2, q3] => verifyChallengeFields H mlc now fresh q0 q1 q2 q3
         | _ => .error .invalidChallenge)
      else .error .invalidChallenge := rfl

/-- One-step unfolding of `VerifySessionId` on a non-empty string. -/
theorem VerifySessionId_cons (H : HashModel) (mlc : AuthMagicLinkController) (now : Int)
    (c0 : Nat) (body : Bytes) :
    VerifySessionId H mlc now (c0 :: body) =
      if c0 = 83 then
        (match splitOnByte 45 body with
         | [q0, q1, q2, q3] => verifySessionIdFields H mlc now q0 q1 q2 q3
         | _ => .error .invalidSessionId)
      else .error .invalidSessionId := rfl

/-- Canonical right-nested form of a generated challenge token. -/
theorem GenerateChallenge_shape (H : HashModel) (mlc : AuthMagicLinkController)
    (salt : Bytes) (now : Int) (email : Bytes) :
    GenerateChallenge H mlc salt now email =
      57 :: (encodeToString salt ++ 45 :: (encodeToString (NormalizeEmail email) ++ 45 ::
        (itoa (now + mlc.challengeExpDuration) ++ 45 :: encodeToString
          (H.hmacSha256 mlc.secretKeyHash (salt ++ 0 :: (NormalizeEmail email ++ 0 ::
            itoa (now + mlc.challengeExpDuration))))))) := by
  simp [GenerateChallenge, makeHMAC, List.cons_append, List.append_assoc]

/-- Canonical right-nested form of a generated session token. -/
theorem GenerateSessionId_shape (H : HashModel) (mlc : AuthMagicLinkController)
    (salt : Bytes) (now : Int) (user : AuthUserRecord) :
    GenerateSessionId H mlc salt now user =
      83 :: (encodeToString salt ++ 45 :: (ulidString user.ID ++ 45 ::
        (itoa (if mlc.sessionExpDuration > 0 then now + mlc.sessionExpDuration else 0) ++
          45 :: encodeToString
          (H.hmacSha256 mlc.secretKeyHash (salt ++ 0 :: (user.ID ++ 0 ::
            itoa (if mlc.sessionExpDuration > 0 then now + mlc.sessionExpDuration
                  else 0))))))) := by
  simp [GenerateSessionId, makeHMAC, List.cons_append, List.append_assoc]

/-- Any successful challenge verification returns either a store record with
its `RecentLoginTime` refreshed, or a freshly fabricated record. -/
theorem verifyChallengeFields_ok_inv {H : HashModel} {mlc : AuthMagicLinkController}
    {now : Int} {fresh : ULID} {p0 p1 p2 p3 : Bytes} {u : AuthUserRecord}
    (h : verifyChallengeFields H mlc now fresh p0 p1 p2 p3 = .ok u) :
    (∃ e r, mlc.db.getUserByEmail e = .ok r ∧ u = { r with RecentLoginTime := now }) ∨
    (∃ e, u = NewAuthUserRecord e fresh now) := by
  unfold verifyChallengeFields at h
  rcases hd0 : decodeFromString p0 with _ | salt
  · rw [hd0] at h; simp at h
  rw [hd0] at h
  simp only [] at h
  rcases hd1 : decodeFromString p1 with _ | email
  · rw [hd1] at h; simp at h
  rw [hd1] at h
  simp only [] at h
  rcases hd2 : atoi p2 with _ | exp
  · rw [hd2] at h; simp at h
  rw [hd2] at h
  simp only [] at h
  by_cases hlt : exp < now
  · rw [if_pos hlt] at h; simp at h
  rw [if_neg hlt] at h
  rcases hd3 : decodeFromString p3 with _ | hm
  · rw [hd3] at h; simp at h
  rw [hd3] at h
  simp only [] at h
  by_cases hmac : hm = makeHMAC H mlc (salt ++ 0 :: email ++ 0 :: itoa exp)
  · rw [if_pos hmac] at h
    rcases hdb : mlc.db.getUserByEmail email with e | r
    · cases e <;> rw [hdb] at h <;> simp at h
      exact Or.inr ⟨email, h.symm⟩
    · rw [hdb] at h
      simp at h
      exact Or.inl ⟨email, r, hdb, h.symm⟩
  · rw [if_neg hmac] at h
    simp at h

/-- Inversion of a successful `VerifyChallenge`. -/
theorem VerifyChallenge_ok_inv {H : HashModel} {mlc : AuthMagicLinkController}
    {now : Int} {fresh : ULID} {c : Bytes} {u : AuthUserRecord}
    (h : VerifyChallenge H mlc now fresh c = .ok u) :
    (∃ e r, mlc.db.getUserByEmail e = .ok r ∧ u = { r with RecentLoginTime := now }) ∨
    (∃ e, u = NewAuthUserRecord e fresh now) := by
  rcases c with _ | ⟨c0, body⟩
  · simp [VerifyChallenge] at h
  · rw [VerifyChallenge_cons] at h
    by_cases h57 : c0 = 57
    · rw [if_pos h57] at h
      rcases hsplit : splitOnByte 45 body with _ | ⟨q0, qs⟩
      · rw [hsplit] at h; simp at h
      rcases qs with _ | ⟨q1, qs⟩
      · rw [hsplit] at h; simp at h
      rcases qs with _ | ⟨q2, qs⟩
      · rw [hsplit] at h; simp at h
      rcases qs with _ | ⟨q3, qs⟩
      · rw [hsplit] at h; simp at h
      rcases qs with _ | ⟨q4, qs⟩
      · rw [hsplit] at h
        exact verifyChallengeFields_ok_inv h
      · rw [hsplit] at h; simp at h
    · rw [if_neg h57] at h; simp at h

/-- Any successful session verification returns a record straight from the
user store, unmodified. -/
theorem verifySessionIdFields_ok_inv {H : HashModel} {mlc : AuthMagicLinkController}
    {now : Int} {p0 p1 p2 p3 : Bytes} {u : AuthUserRecord}
    (h : verifySessionIdFields H mlc now p0 p1 p2 p3 = .ok u) :
    ∃ id, mlc.db.getUserById id = .ok u := by
  unfold verifySessionIdFields at h
  rcases hd0 : decodeFromString p0 with _ | salt
  · rw [hd0] at h; simp at h
  rw [hd0] at h
  simp only [] at h
  rcases hd1 : parseStrict p1 with _ | userId
  · rw [hd1] at h; simp at h
  rw [hd1] at h
  simp only [] at h
  rcases hd2 : atoi p2 with _ | exp
  · rw [hd2] at h; simp at h
  rw [hd2] at h
  simp only [] at h
  by_cases hlt : exp < now
  · rw [if_pos hlt] at h; simp at h
  rw [if_neg hlt] at h
  rcases hd3 : decodeFromString p3 with _ | hm
  · rw [hd3] at h; simp at h
  rw [hd3] at h
  simp only [] at h
  by_cases hmac : hm = makeHMAC H mlc (salt ++ 0 :: userId ++ 0 :: p2)
  · rw [if_pos hmac] at h
    exact ⟨userId, h⟩
  · rw [if_neg hmac] at h
    simp at h

/-- Inversion of a successful `VerifySessionId`. -/
theorem VerifySessionId_ok_inv {H : HashModel} {mlc : AuthMagicLinkController}
    {now : Int} {c : Bytes} {u : AuthUserRecord}
    (h : VerifySessionId H mlc now c = .ok u) :
    ∃ id, mlc.db.getUserById id = .ok u := by
  rcases c with _ | ⟨c0, body⟩
  · simp [VerifySessionId] at h
  · rw [VerifySessionId_cons] at h
    by_cases h83 : c0 = 83
    · rw [if_pos h83] at h
      rcases hsplit : splitOnByte 45 body with _ | ⟨q0, qs⟩
      · rw [hsplit] at h; simp at h
      rcases qs with _ | ⟨q1, qs⟩
      · rw [hsplit] at h; simp at h
      rcases qs with _ | ⟨q2, qs⟩
      · rw [hsplit] at h; simp at h
      rcases qs with _ | ⟨q3, qs⟩
      · rw [hsplit] at h; simp at h
      rcases qs with _ | ⟨q4, qs⟩
      · rw [hsplit] at h
        exact verifySessionIdFields_ok_inv h
      · rw [hsplit] at h; simp at h
    · rw [if_neg h83] at h; simp at h

/-! ## Single-character tampering machinery -/

theorem joinSep_cons_head (sep c : Nat) (p : Bytes) (ps : List Bytes) :
    joinSep sep ((c :: p) :: ps) = c :: joinSep sep (p :: ps) := by
  cases ps with
  | nil => rfl
  | cons q qs => rfl

theorem joinSep_splitOnByte (sep : Nat) : ∀ l : Bytes, joinSep sep (splitOnByte sep l) = l := by
  intro l
  induction l with
  | nil => rfl
  | cons c rest ih =>
    rw [show splitOnByte sep (c :: rest) =
      (match splitOnByte sep rest with
       | [] => [[c]]
       | p :: ps => if c = sep then [] :: p :: ps else (c :: p) :: ps) from rfl]
    rcases hs : splitOnByte sep rest with _ | ⟨p, ps⟩
    · exact absurd hs (splitOnByte_ne_nil sep rest)
    · rw [hs] at ih
      simp only []
      by_cases hc : c = sep
      · rw [if_pos hc]
        rw [show joinSep sep ([] :: p :: ps) = sep :: joinSep sep (p :: ps) from rfl, ih, hc]
      · rw [if_neg hc, joinSep_cons_head, ih]

/-- Locating a single replaced character relative to one separator occurrence:
either it falls inside the part before the separator, or strictly after the
separator. -/
theorem tamper_step {pre suf R p : Bytes} {a : Nat}
    (h : pre ++ a :: suf = p ++ 45 :: R) (ha : a ≠ 45) :
    (∃ v, p = pre ++ a :: v ∧ suf = v ++ 45 :: R) ∨
    (∃ w, pre = p ++ 45 :: w ∧ w ++ a :: suf = R) := by
  rcases List.append_eq_append_iff.mp h with ⟨w, hw1, hw2⟩ | ⟨w, hw1, hw2⟩
  · rcases w with _ | ⟨x, w2⟩
    · rw [List.nil_append] at hw2
      injection hw2 with h1 h2
      exact absurd h1 ha
    · rw [List.cons_append] at hw2
      injection hw2 with h1 h2
      refine Or.inl ⟨w2, ?_, h2⟩
      rw [hw1, ← h1]
  · rcases w with _ | ⟨x, w2⟩
    · rw [List.nil_append] at hw2
      injection hw2 with h1 h2
      exact absurd h1.symm ha
    · rw [List.cons_append] at hw2
      injection hw2 with h1 h2
      refine Or.inr ⟨w2, ?_, h2.symm⟩
      rw [hw1, ← h1]

/-- Replacing a character that is not the separator keeps a part
separator-free. -/
theorem not_mem_swap {u v : Bytes} {a b s : Nat} (h : s ∉ u ++ a :: v) (hb : b ≠ s) :
    s ∉ u ++ b :: v := by
  intro hmem
  rcases List.mem_append.mp hmem with hq | hq
  · exact h (List.mem_append.mpr (Or.inl hq))
  · rcases List.mem_cons.mp hq with hq | hq
    · exact hb hq.symm
    · exact h (List.mem_append.mpr (Or.inr (List.mem_cons.mpr (Or.inr hq))))

/-- Replacing one non-separator character `a` of a four-part token body by
another non-separator character `b` replaces that character inside exactly one
of the four parts. -/
theorem tamper_locate {pre suf p0 p1 p2 p3 : Bytes} {a b : Nat}
    (hbody : pre ++ a :: suf = p0 ++ 45 :: (p1 ++ 45 :: (p2 ++ 45 :: p3)))
    (ha : a ≠ 45) (hb : b ≠ 45)
    (h0 : (45 : Nat) ∉ p0) (h1 : (45 : Nat) ∉ p1) (h2 : (45 : Nat) ∉ p2)
    (h3 : (45 : Nat) ∉ p3) :
    (∃ u v, p0 = u ++ a :: v ∧
       pre ++ b :: suf = (u ++ b :: v) ++ 45 :: (p1 ++ 45 :: (p2 ++ 45 :: p3)) ∧
       (45 : Nat) ∉ u ++ b :: v) ∨
    (∃ u v, p1 = u ++ a :: v ∧
       pre ++ b :: suf = p0 ++ 45 :: ((u ++ b :: v) ++ 45 :: (p2 ++ 45 :: p3)) ∧
       (45 : Nat) ∉ u ++ b :: v) ∨
    (∃ u v, p2 = u ++ a :: v ∧
       pre ++ b :: suf = p0 ++ 45 :: (p1 ++ 45 :: ((u ++ b :: v) ++ 45 :: p3)) ∧
       (45 : Nat) ∉ u ++ b :: v) ∨
    (∃ u v, p3 = u ++ a :: v ∧
       pre ++ b :: suf = p0 ++ 45 :: (p1 ++ 45 :: (p2 ++ 45 :: (u ++ b :: v))) ∧
       (45 : Nat) ∉ u ++ b :: v) := by
  rcases tamper_step hbody ha with ⟨v, hp, hs⟩ | ⟨w, hw, hR⟩
  · refine Or.inl ⟨pre, v, hp, ?_, not_mem_swap (hp ▸ h0) hb⟩
    rw [hs]
    simp [List.cons_append, List.append_assoc]
  · rcases tamper_step hR ha with ⟨v, hp, hs⟩ | ⟨w2, hw2, hR2⟩
    · refine Or.inr (Or.inl ⟨w, v, hp, ?_, not_mem_swap (hp ▸ h1) hb⟩)
      rw [hw, hs]
      simp [List.cons_append, List.append_assoc]
    · rcases tamper_step hR2 ha with ⟨v, hp, hs⟩ | ⟨w3, hw3, hR3⟩
      · refine Or.inr (Or.inr (Or.inl ⟨w2, v, hp, ?_, not_mem_swap (hp ▸ h2) hb⟩))
        rw [hw, hw2, hs]
        simp [List.cons_append, List.append_assoc]
      · refine Or.inr (Or.inr (Or.inr ⟨w3, suf, hR3.symm, ?_, not_mem_swap (hR3 ▸ h3) hb⟩))
        rw [hw, hw2, hw3]
        simp [List.cons_append, List.append_assoc]

/-- The separator count of a well-formed four-part body is exactly three. -/
theorem count_token {p0 p1 p2 p3 : Bytes} (h0 : (45 : Nat) ∉ p0) (h1 : (45 : Nat) ∉ p1)
    (h2 : (45 : Nat) ∉ p2) (h3 : (45 : Nat) ∉ p3) :
    (p0 ++ 45 :: (p1 ++ 45 :: (p2 ++ 45 :: p3))).count 45 = 3 := by
  have e0 : p0.count 45 = 0 := List.count_eq_zero.mpr h0
  have e1 : p1.count 45 = 0 := List.count_eq_zero.mpr h1
  have e2 : p2.count 45 = 0 := List.count_eq_zero.mpr h2
  have e3 : p3.count 45 = 0 := List.count_eq_zero.mpr h3
  simp [List.count_append, List.count_cons_self, e0, e1, e2, e3]

/-- Separator count of a body with one distinguished character. -/
theorem count_mid (pre suf : Bytes) (x : Nat) :
    (pre ++ x :: suf).count 45 = pre.count 45 + suf.count 45 + (if x = 45 then 1 else 0) := by
  by_cases hx : x = 45
  · subst hx
    simp [List.count_append, List.count_cons_self]
    omega
  · simp [List.count_append, List.count_cons_of_ne (fun e => hx e.symm), hx]

/-- A challenge whose body does not split into exactly four parts is
invalid. -/
theorem VerifyChallenge_parts_ne4 (H : HashModel) (mlc : AuthMagicLinkController)
    (now : Int) (fresh : ULID) {body : Bytes}
    (hlen : (splitOnByte 45 body).length ≠ 4) :
    VerifyChallenge H mlc now fresh (57 :: body) = .error .invalidChallenge := by
  rw [VerifyChallenge_cons, if_pos rfl]
  rcases hsp : splitOnByte 45 body with _ | ⟨q0, _ | ⟨q1, _ | ⟨q2, _ | ⟨q3, _ | ⟨q4, qs⟩⟩⟩⟩⟩
  · rfl
  · rfl
  · rfl
  · rfl
  · exact absurd (by rw [hsp]; rfl) hlen
  · rfl

/-- A session token whose body does not split into exactly four parts is
invalid. -/
theorem VerifySessionId_parts_ne4 (H : HashModel) (mlc : AuthMagicLinkController)
    (now : Int) {body : Bytes}
    (hlen : (splitOnByte 45 body).length ≠ 4) :
    VerifySessionId H mlc now (83 :: body) = .error .invalidSessionId := by
  rw [VerifySessionId_cons, if_pos rfl]
  rcases hsp : splitOnByte 45 body with _ | ⟨q0, _ | ⟨q1, _ | ⟨q2, _ | ⟨q3, _ | ⟨q4, qs⟩⟩⟩⟩⟩
  · rfl
  · rfl
  · rfl
  · rfl
  · exact absurd (by rw [hsp]; rfl) hlen
  · rfl

/-- Cancellation inside the HMAC payload: equal payloads with the same salt
and trailing section have the same middle section. -/
theorem payload_cancel {salt m m' X : Bytes}
    (h : salt ++ 0 :: m' ++ 0 :: X = salt ++ 0 :: m ++ 0 :: X) : m' = m := by
  have h1 : salt ++ (0 :: (m' ++ 0 :: X)) = salt ++ (0 :: (m ++ 0 :: X)) := by
    simpa [List.cons_append, List.append_assoc] using h
  have h2 := List.append_cancel_left h1
  injection h2 with h3 h4
  exact List.append_cancel_right h4

/-! ## Field-wise evaluation lemmas -/

theorem verifyChallengeFields_step0 {H : HashModel} {mlc : AuthMagicLinkController}
    {now : Int} {fresh : ULID} {p0 p1 p2 p3 : Bytes}
    (d0 : decodeFromString p0 = none) :
    verifyChallengeFields H mlc now fresh p0 p1 p2 p3 = .error .invalidChallenge := by
  unfold verifyChallengeFields
  rw [d0]

theorem verifyChallengeFields_step1 {H : HashModel} {mlc : AuthMagicLinkController}
    {now : Int} {fresh : ULID} {p0 p1 p2 p3 salt : Bytes}
    (d0 : decodeFromString p0 = some salt) (d1 : decodeFromString p1 = none) :
    verifyChallengeFields H mlc now fresh p0 p1 p2 p3 = .error .invalidChallenge := by
  unfold verifyChallengeFields
  rw [d0]
  simp only []
  rw [d1]

theorem verifyChallengeFields_step2 {H : HashModel} {mlc : AuthMagicLinkController}
    {now : Int} {fresh : ULID} {p0 p1 p2 p3 salt email : Bytes}
    (d0 : decodeFromString p0 = some salt) (d1 : decodeFromString p1 = some email)
    (d2 : atoi p2 = none) :
    verifyChallengeFields H mlc now fresh p0 p1 p2 p3 = .error .invalidChallenge := by
  unfold verifyChallengeFields
  rw [d0]
  simp only []
  rw [d1]
  simp only []
  rw [d2]

theorem verifyChallengeFields_expired {H : HashModel} {mlc : AuthMagicLinkController}
    {now : Int} {fresh : ULID} {p0 p1 p2 p3 salt email : Bytes} {exp : Int}
    (d0 : decodeFromString p0 = some salt) (d1 : decodeFromString p1 = some email)
    (d2 : atoi p2 = some exp) (hlt : exp < now) :
    verifyChallengeFields H mlc now fresh p0 p1 p2 p3 = .error .expiredChallenge := by
  unfold verifyChallengeFields
  rw [d0]
  simp only []
  rw [d1]
  simp only []
  rw [d2]
  simp only []
  rw [if_pos hlt]

theorem verifyChallengeFields_step3 {H : HashModel} {mlc : AuthMagicLinkController}
    {now : Int} {fresh : ULID} {p0 p1 p2 p3 salt email : Bytes} {exp : Int}
    (d0 : decodeFromString p0 = some salt) (d1 : decodeFromString p1 = some email)
    (d2 : atoi p2 = some exp) (hlt : ¬ exp < now) (d3 : decodeFromString p3 = none) :
    verifyChallengeFields H mlc now fresh p0 p1 p2 p3 = .error .invalidChallenge := by
  unfold verifyChallengeFields
  rw [d0]
  simp only []
  rw [d1]
  simp only []
  rw [d2]
  simp only []
  rw [if_neg hlt, d3]

theorem verifyChallengeFields_eval {H : HashModel} {mlc : AuthMagicLinkController}
    {now : Int} {fresh : ULID} {p0 p1 p2 p3 salt email hm : Bytes} {exp : Int}
    (d0 : decodeFromString p0 = some salt) (d1 : decodeFromString p1 = some email)
    (d2 : atoi p2 = some exp) (hlt : ¬ exp < now) (d3 : decodeFromString p3 = some hm) :
    verifyChallengeFields H mlc now fresh p0 p1 p2 p3 =
      if hm = makeHMAC H mlc (salt ++ 0 :: email ++ 0 :: itoa exp) then
        (match mlc.db.getUserByEmail email with
         | .ok u => (.ok { u with RecentLoginTime := now } : Except GoError AuthUserRecord)
         | .error .userNotFound => .ok (NewAuthUserRecord email fresh now)
         | .error e => .error e)
      else .error .brokenChallenge := by
  unfold verifyChallengeFields
  rw [d0]
  simp only []
  rw [d1]
  simp only []
  rw [d2]
  simp only []
  rw [if_neg hlt, d3]

theorem verifySessionIdFields_step0 {H : HashModel} {mlc : AuthMagicLinkController}
    {now : Int} {p0 p1 p2 p3 : Bytes}
    (d0 : decodeFromString p0 = none) :
    verifySessionIdFields H mlc now p0 p1 p2 p3 = .error .invalidSessionId := by
  unfold verifySessionIdFields
  rw [d0]

theorem verifySessionIdFields_step1 {H : HashModel} {mlc : AuthMagicLinkController}
    {now : Int} {p0 p1 p2 p3 salt : Bytes}
    (d0 : decodeFromString p0 = some salt) (d1 : parseStrict p1 = none) :
    verifySessionIdFields H mlc now p0 p1 p2 p3 = .error .invalidSessionId := by
  unfold verifySessionIdFields
  rw [d0]
  simp only []
  rw [d1]

theorem verifySessionIdFields_step2 {H : HashModel} {mlc : AuthMagicLinkController}
    {now : Int} {p0 p1 p2 p3 salt : Bytes} {userId : ULID}
    (d0 : decodeFromString p0 = some salt) (d1 : parseStrict p1 = some userId)
    (d2 : atoi p2 = none) :
    verifySessionIdFields H mlc now p0 p1 p2 p3 = .error .invalidSessionId := by
  unfold verifySessionIdFields
  rw [d0]
  simp only []
  rw [d1]
  simp only []
  rw [d2]

theorem verifySessionIdFields_expired {H : HashModel} {mlc : AuthMagicLinkController}
    {now : Int} {p0 p1 p2 p3 salt : Bytes} {userId : ULID} {exp : Int}
    (d0 : decodeFromString p0 = some salt) (d1 : parseStrict p1 = some userId)
    (d2 : atoi p2 = some exp) (hlt : exp < now) :
    verifySessionIdFields H mlc now p0 p1 p2 p3 = .error .expiredSessionId := by
  unfold verifySessionIdFields
  rw [d0]
  simp only []
  rw [d1]
  simp only []
  rw [d2]
  simp only []
  rw [if_pos hlt]

theorem verifySessionIdFields_step3 {H : HashModel} {mlc : AuthMagicLinkController}
    {now : Int} {p0 p1 p2 p3 salt : Bytes} {userId : ULID} {exp : Int}
    (d0 : decodeFromString p0 = some salt) (d1 : parseStrict p1 = some userId)
    (d2 : atoi p2 = some exp) (hlt : ¬ exp < now) (d3 : decodeFromString p3 = none) :
    verifySessionIdFields H mlc now p0 p1 p2 p3 = .error .invalidSessionId := by
  unfold verifySessionIdFields
  rw [d0]
  simp only []
  rw [d1]
  simp only []
  rw [d2]
  simp only []
  rw [if_neg hlt, d3]

theorem verifySessionIdFields_eval {H : HashModel} {mlc : AuthMagicLinkController}
    {now : Int} {p0 p1 p2 p3 salt hm : Bytes} {userId : ULID} {exp : Int}
    (d0 : decodeFromString p0 = some salt) (d1 : parseStrict p1 = some userId)
    (d2 : atoi p2 = some exp) (hlt : ¬ exp < now) (d3 : decodeFromString p3 = some hm) :
    verifySessionIdFields H mlc now p0 p1 p2 p3 =
      if hm = makeHMAC H mlc (salt ++ 0 :: userId ++ 0 :: p2) then
        mlc.db.getUserById userId
      else .error .brokenSessionId := by
  unfold verifySessionIdFields
  rw [d0]
  simp only []
  rw [d1]
  simp only []
  rw [d2]
  simp only []
  rw [if_neg hlt, d3]

/-- Full inversion of a successful field-wise challenge check: every
intermediate decoding step succeeded and the MAC matched. -/
theorem verifyChallengeFields_ok_spec {H : HashModel} {mlc : AuthMagicLinkController}
    {now : Int} {fresh : ULID} {p0 p1 p2 p3 : Bytes} {u : AuthUserRecord}
    (h : verifyChallengeFields H mlc now fresh p0 p1 p2 p3 = .ok u) :
    ∃ salt email exp hm,
      decodeFromString p0 = some salt ∧ decodeFromString p1 = some email ∧
      atoi p2 = some exp ∧ ¬ exp < now ∧ decodeFromString p3 = some hm ∧
      hm = makeHMAC H mlc (salt ++ 0 :: email ++ 0 :: itoa exp) ∧
      (match mlc.db.getUserByEmail email with
       | .ok r => (.ok { r with RecentLoginTime := now } : Except GoError AuthUserRecord)
       | .error .userNotFound => .ok (NewAuthUserRecord email fresh now)
       | .error e => .error e) = .ok u := by
  unfold verifyChallengeFields at h
  rcases hd0 : decodeFromString p0 with _ | salt
  · rw [hd0] at h; simp at h
  rw [hd0] at h
  simp only [] at h
  rcases hd1 : decodeFromString p1 with _ | email
  · rw [hd1] at h; simp at h
  rw [hd1] at h
  simp only [] at h
  rcases hd2 : atoi p2 with _ | exp
  · rw [hd2] at h; simp at h
  rw [hd2] at h
  simp only [] at h
  by_cases hlt : exp < now
  · rw [if_pos hlt] at h; simp at h
  rw [if_neg hlt] at h
  rcases hd3 : decodeFromString p3 with _ | hm
  · rw [hd3] at h; simp at h
  rw [hd3] at h
  simp only [] at h
  by_cases hmac : hm = makeHMAC H mlc (salt ++ 0 :: email ++ 0 :: itoa exp)
  · rw [if_pos hmac] at h
    exact ⟨salt, email, exp, hm, rfl, rfl, rfl, hlt, rfl, hmac, h⟩
  · rw [if_neg hmac] at h
    simp at h

/-- Full inversion of a successful field-wise session check. -/
theorem verifySessionIdFields_ok_spec {H : HashModel} {mlc : AuthMagicLinkController}
    {now : Int} {p0 p1 p2 p3 : Bytes} {u : AuthUserRecord}
    (h : verifySessionIdFields H mlc now p0 p1 p2 p3 = .ok u) :
    ∃ salt userId exp hm,
      decodeFromString p0 = some salt ∧ parseStrict p1 = some userId ∧
      atoi p2 = some exp ∧ ¬ exp < now ∧ decodeFromString p3 = some hm ∧
      hm = makeHMAC H mlc (salt ++ 0 :: userId ++ 0 :: p2) ∧
      mlc.db.getUserById userId = .ok u := by
  unfold verifySessionIdFields at h
  rcases hd0 : decodeFromString p0 with _ | salt
  · rw [hd0] at h; simp at h
  rw [hd0] at h
  simp only [] at h
  rcases hd1 : parseStrict p1 with _ | userId
  · rw [hd1] at h; simp at h
  rw [hd1] at h
  simp only [] at h
  rcases hd2 : atoi p2 with _ | exp
  · rw [hd2] at h; simp at h
  rw [hd2] at h
  simp only [] at h
  by_cases hlt : exp < now
  · rw [if_pos hlt] at h; simp at h
  rw [if_neg hlt] at h
  rcases hd3 : decodeFromString p3 with _ | hm
  · rw [hd3] at h; simp at h
  rw [hd3] at h
  simp only [] at h
  by_cases hmac : hm = makeHMAC H mlc (salt ++ 0 :: userId ++ 0 :: p2)
  · rw [if_pos hmac] at h
    exact ⟨salt, userId, exp, hm, rfl, rfl, rfl, hlt, rfl, hmac, h⟩
  · rw [if_neg hmac] at h
    simp at h

/-- Replacing one character of a verifying challenge token either still
verifies with the same record, or fails with one of the three challenge
errors. -/
theorem challenge_tamper (H : HashModel) (mlc : AuthMagicLinkController) (now : Int)
    (fresh : ULID) (pre suf : Bytes) (a b : Nat) (u0 : AuthUserRecord)
    (hinj : Function.Injective (H.hmacSha256 mlc.secretKeyHash))
    (hok : VerifyChallenge H mlc now fresh (pre ++ a :: suf) = .ok u0)
    (hne : a ≠ b) :
    VerifyChallenge H mlc now fresh (pre ++ b :: suf) = .ok u0 ∨
    VerifyChallenge H mlc now fresh (pre ++ b :: suf) = .error .invalidChallenge ∨
    VerifyChallenge H mlc now fresh (pre ++ b :: suf) = .error .expiredChallenge ∨
    VerifyChallenge H mlc now fresh (pre ++ b :: suf) = .error .brokenChallenge := by
  rcases pre with _ | ⟨c0, pre2⟩
  · rw [List.nil_append] at hok ⊢
    rw [VerifyChallenge_cons] at hok
    by_cases h57 : a = 57
    · have hb57 : b ≠ 57 := fun hbe => hne (h57.trans hbe.symm)
      rw [VerifyChallenge_cons, if_neg hb57]
      exact Or.inr (Or.inl rfl)
    · rw [if_neg h57] at hok
      simp at hok
  · rw [List.cons_append] at hok ⊢
    rw [VerifyChallenge_cons] at hok
    by_cases h57 : c0 = 57
    swap
    · rw [if_neg h57] at hok
      simp at hok
    rw [if_pos h57] at hok
    subst h57
    rcases hsp : splitOnByte 45 (pre2 ++ a :: suf) with _ | ⟨p0, _ | ⟨p1, _ | ⟨p2, _ | ⟨p3, _ | ⟨p4, ps⟩⟩⟩⟩⟩
    · rw [hsp] at hok; simp at hok
    · rw [hsp] at hok; simp at hok
    · rw [hsp] at hok; simp at hok
    · rw [hsp] at hok; simp at hok
    swap
    · rw [hsp] at hok; simp at hok
    rw [hsp] at hok
    have hjoin := (joinSep_splitOnByte 45 (pre2 ++ a :: suf)).symm
    rw [hsp] at hjoin
    have hred : joinSep 45 [p0, p1, p2, p3] = p0 ++ 45 :: (p1 ++ 45 :: (p2 ++ 45 :: p3)) := rfl
    have hbody := hjoin.trans hred
    have h0 : (45 : Nat) ∉ p0 := mem_splitOnByte_not_mem (by rw [hsp]; simp)
    have h1 : (45 : Nat) ∉ p1 := mem_splitOnByte_not_mem (by rw [hsp]; simp)
    have h2 : (45 : Nat) ∉ p2 := mem_splitOnByte_not_mem (by rw [hsp]; simp)
    have h3 : (45 : Nat) ∉ p3 := mem_splitOnByte_not_mem (by rw [hsp]; simp)
    by_cases ha45 : a = 45
    · have hb45 : b ≠ 45 := fun hbe => hne (ha45.trans hbe.symm)
      have hc3 : (pre2 ++ a :: suf).count 45 = 3 := by
        rw [hbody]
        exact count_token h0 h1 h2 h3
      have hlen : (splitOnByte 45 (pre2 ++ b :: suf)).length ≠ 4 := by
        rw [length_splitOnByte, count_mid]
        rw [count_mid, if_pos ha45] at hc3
        rw [if_neg hb45]
        omega
      exact Or.inr (Or.inl (VerifyChallenge_parts_ne4 H mlc now fresh hlen))
    · by_cases hb45 : b = 45
      · have hc3 : (pre2 ++ a :: suf).count 45 = 3 := by
          rw [hbody]
          exact count_token h0 h1 h2 h3
        have hlen : (splitOnByte 45 (pre2 ++ b :: suf)).length ≠ 4 := by
          rw [length_splitOnByte, count_mid]
          rw [count_mid, if_neg ha45] at hc3
          rw [if_pos hb45]
          omega
        exact Or.inr (Or.inl (VerifyChallenge_parts_ne4 H mlc now fresh hlen))
      · obtain ⟨salt, email, exp, hm, d0, d1, d2, hlt, d3, hmeq, hdb⟩ :=
          verifyChallengeFields_ok_spec hok
        rcases tamper_locate hbody ha45 hb45 h0 h1 h2 h3 with
          ⟨u, v, hp, hbody2, hfree⟩ | ⟨u, v, hp, hbody2, hfree⟩ |
          ⟨u, v, hp, hbody2, hfree⟩ | ⟨u, v, hp, hbody2, hfree⟩
        · rw [hbody2, VerifyChallenge_split H mlc now fresh hfree h1 h2 h3]
          rcases hd0 : decodeFromString (u ++ b :: v) with _ | salt2
          · exact Or.inr (Or.inl (verifyChallengeFields_step0 hd0))
          · rw [verifyChallengeFields_eval hd0 d1 d2 hlt d3]
            by_cases hmac : hm = makeHMAC H mlc (salt2 ++ 0 :: email ++ 0 :: itoa exp)
            · rw [if_pos hmac]
              exact Or.inl hdb
            · rw [if_neg hmac]
              exact Or.inr (Or.inr (Or.inr rfl))
        · rw [hbody2, VerifyChallenge_split H mlc now fresh h0 hfree h2 h3]
          rcases hd1 : decodeFromString (u ++ b :: v) with _ | email2
          · exact Or.inr (Or.inl (verifyChallengeFields_step1 d0 hd1))
          · rw [verifyChallengeFields_eval d0 hd1 d2 hlt d3]
            by_cases hmac : hm = makeHMAC H mlc (salt ++ 0 :: email2 ++ 0 :: itoa exp)
            · rw [if_pos hmac]
              have hpay : salt ++ 0 :: email2 ++ 0 :: itoa exp =
                  salt ++ 0 :: email ++ 0 :: itoa exp :=
                hinj (by simpa [makeHMAC] using hmac.symm.trans hmeq)
              rw [payload_cancel hpay]
              exact Or.inl hdb
            · rw [if_neg hmac]
              exact Or.inr (Or.inr (Or.inr rfl))
        · rw [hbody2, VerifyChallenge_split H mlc now fresh h0 h1 hfree h3]
          rcases hd2 : atoi (u ++ b :: v) with _ | exp2
          · exact Or.inr (Or.inl (verifyChallengeFields_step2 d0 d1 hd2))
          · by_cases hlt2 : exp2 < now
            · exact Or.inr (Or.inr (Or.inl (verifyChallengeFields_expired d0 d1 hd2 hlt2)))
            · rw [verifyChallengeFields_eval d0 d1 hd2 hlt2 d3]
              by_cases hmac : hm = makeHMAC H mlc (salt ++ 0 :: email ++ 0 :: itoa exp2)
              · rw [if_pos hmac]
                exact Or.inl hdb
              · rw [if_neg hmac]
                exact Or.inr (Or.inr (Or.inr rfl))
        · rw [hbody2, VerifyChallenge_split H mlc now fresh h0 h1 h2 hfree]
          rcases hd3 : decodeFromString (u ++ b :: v) with _ | hm2
          · exact Or.inr (Or.inl (verifyChallengeFields_step3 d0 d1 d2 hlt hd3))
          · rw [verifyChallengeFields_eval d0 d1 d2 hlt hd3]
            by_cases hmac : hm2 = makeHMAC H mlc (salt ++ 0 :: email ++ 0 :: itoa exp)
            · rw [if_pos hmac]
              exact Or.inl hdb
            · rw [if_neg hmac]
              exact Or.inr (Or.inr (Or.inr rfl))

/-- Replacing one character of a verifying session token either still
verifies with the same record, or fails with one of the three session
errors. -/
theorem session_tamper (H : HashModel) (mlc : AuthMagicLinkController) (now : Int)
    (pre suf : Bytes) (a b : Nat) (u0 : AuthUserRecord)
    (hinj : Function.Injective (H.hmacSha256 mlc.secretKeyHash))
    (hok : VerifySessionId H mlc now (pre ++ a :: suf) = .ok u0)
    (hne : a ≠ b) :
    VerifySessionId H mlc now (pre ++ b :: suf) = .ok u0 ∨
    VerifySessionId H mlc now (pre ++ b :: suf) = .error .invalidSessionId ∨
    VerifySessionId H mlc now (pre ++ b :: suf) = .error .expiredSessionId ∨
    VerifySessionId H mlc now (pre ++ b :: suf) = .error .brokenSessionId := by
  rcases pre with _ | ⟨c0, pre2⟩
  · rw [List.nil_append] at hok ⊢
    rw [VerifySessionId_cons] at hok
    by_cases h83 : a = 83
    · have hb83 : b ≠ 83 := fun hbe => hne (h83.trans hbe.symm)
      rw [VerifySessionId_cons, if_neg hb83]
      exact Or.inr (Or.inl rfl)
    · rw [if_neg h83] at hok
      simp at hok
  · rw [List.cons_append] at hok ⊢
    rw [VerifySessionId_cons] at hok
    by_cases h83 : c0 = 83
    swap
    · rw [if_neg h83] at hok
      simp at hok
    rw [if_pos h83] at hok
    subst h83
    rcases hsp : splitOnByte 45 (pre2 ++ a :: suf) with _ | ⟨p0, _ | ⟨p1, _ | ⟨p2, _ | ⟨p3, _ | ⟨p4, ps⟩⟩⟩⟩⟩
    · rw [hsp] at hok; simp at hok
    · rw [hsp] at hok; simp at hok
    · rw [hsp] at hok; simp at hok
    · rw [hsp] at hok; simp at hok
    swap
    · rw [hsp] at hok; simp at hok
    rw [hsp] at hok
    have hjoin := (joinSep_splitOnByte 45 (pre2 ++ a :: suf)).symm
    rw [hsp] at hjoin
    have hred : joinSep 45 [p0, p1, p2, p3] = p0 ++ 45 :: (p1 ++ 45 :: (p2 ++ 45 :: p3)) := rfl
    have hbody := hjoin.trans hred
    have h0 : (45 : Nat) ∉ p0 := mem_splitOnByte_not_mem (by rw [hsp]; simp)
    have h1 : (45 : Nat) ∉ p1 := mem_splitOnByte_not_mem (by rw [hsp]; simp)
    have h2 : (45 : Nat) ∉ p2 := mem_splitOnByte_not_mem (by rw [hsp]; simp)
    have h3 : (45 : Nat) ∉ p3 := mem_splitOnByte_not_mem (by rw [hsp]; simp)
    by_cases ha45 : a = 45
    · have hb45 : b ≠ 45 := fun hbe => hne (ha45.trans hbe.symm)
      have hc3 : (pre2 ++ a :: suf).count 45 = 3 := by
        rw [hbody]
        exact count_token h0 h1 h2 h3
      have hlen : (splitOnByte 45 (pre2 ++ b :: suf)).length ≠ 4 := by
        rw [length_splitOnByte, count_mid]
        rw [count_mid, if_pos ha45] at hc3
        rw [if_neg hb45]
        omega
      exact Or.inr (Or.inl (VerifySessionId_parts_ne4 H mlc now hlen))
    · by_cases hb45 : b = 45
      · have hc3 : (pre2 ++ a :: suf).count 45 = 3 := by
          rw [hbody]
          exact count_token h0 h1 h2 h3
        have hlen : (splitOnByte 45 (pre2 ++ b :: suf)).length ≠ 4 := by
          rw [length_splitOnByte, count_mid]
          rw [count_mid, if_neg ha45] at hc3
          rw [if_pos hb45]
          omega
        exact Or.inr (Or.inl (VerifySessionId_parts_ne4 H mlc now hlen))
      · obtain ⟨salt, userId, exp, hm, d0, d1, d2, hlt, d3, hmeq, hdb⟩ :=
          verifySessionIdFields_ok_spec hok
        rcases tamper_locate hbody ha45 hb45 h0 h1 h2 h3 with
          ⟨u, v, hp, hbody2, hfree⟩ | ⟨u, v, hp, hbody2, hfree⟩ |
          ⟨u, v, hp, hbody2, hfree⟩ | ⟨u, v, hp, hbody2, hfree⟩
        · rw [hbody2, VerifySessionId_split H mlc now hfree h1 h2 h3]
          rcases hd0 : decodeFromString (u ++ b :: v) with _ | salt2
          · exact Or.inr (Or.inl (verifySessionIdFields_step0 hd0))
          · rw [verifySessionIdFields_eval hd0 d1 d2 hlt d3]
            by_cases hmac : hm = makeHMAC H mlc (salt2 ++ 0 :: userId ++ 0 :: p2)
            · rw [if_pos hmac]
              exact Or.inl hdb
            · rw [if_neg hmac]
              exact Or.inr (Or.inr (Or.inr rfl))
        · rw [hbody2, VerifySessionId_split H mlc now h0 hfree h2 h3]
          rcases hd1 : parseStrict (u ++ b :: v) with _ | userId2
          · exact Or.inr (Or.inl (verifySessionIdFields_step1 d0 hd1))
          · rw [verifySessionIdFields_eval d0 hd1 d2 hlt d3]
            by_cases hmac : hm = makeHMAC H mlc (salt ++ 0 :: userId2 ++ 0 :: p2)
            · rw [if_pos hmac]
              have hpay : salt ++ 0 :: userId2 ++ 0 :: p2 = salt ++ 0 :: userId ++ 0 :: p2 :=
                hinj (by simpa [makeHMAC] using hmac.symm.trans hmeq)
              rw [payload_cancel hpay]
              exact Or.inl hdb
            · rw [if_neg hmac]
              exact Or.inr (Or.inr (Or.inr rfl))
        · rw [hbody2, VerifySessionId_split H mlc now h0 h1 hfree h3]
          rcases hd2 : atoi (u ++ b :: v) with _ | exp2
          · exact Or.inr (Or.inl (verifySessionIdFields_step2 d0 d1 hd2))
          · by_cases hlt2 : exp2 < now
            · exact Or.inr (Or.inr (Or.inl (verifySessionIdFields_expired d0 d1 hd2 hlt2)))
            · rw [verifySessionIdFields_eval d0 d1 hd2 hlt2 d3]
              by_cases hmac : hm = makeHMAC H mlc (salt ++ 0 :: userId ++ 0 :: (u ++ b :: v))
              · rw [if_pos hmac]
                exact Or.inl hdb
              · rw [if_neg hmac]
                exact Or.inr (Or.inr (Or.inr rfl))
        · rw [hbody2, VerifySessionId_split H mlc now h0 h1 h2 hfree]
          rcases hd3 : decodeFromString (u ++ b :: v) with _ | hm2
          · exact Or.inr (Or.inl (verifySessionIdFields_step3 d0 d1 d2 hlt hd3))
          · rw [verifySessionIdFields_eval d0 d1 d2 hlt hd3]
            by_cases hmac : hm2 = makeHMAC H mlc (salt ++ 0 :: userId ++ 0 :: p2)
            · rw [if_pos hmac]
              exact Or.inl hdb
            · rw [if_neg hmac]
              exact Or.inr (Or.inr (Or.inr rfl))

/-! ## Claim theorems -/

/-- C2 (counterexample): the codec round trip fails for the five-byte payload
`hello`, whose stripped encoding `NBSWY3DP` is already a full base-32 block;
`decodeFromString` appends eight further pad characters and the decoder
rejects the pad at position zero of the second quantum.  This refutes the
claim that `decodeFromString (encodeToString b)` succeeds for every byte
string, in particular for byte lengths 0, 5, 10, …. -/
theorem c2_counterexample :
    encodeToString [104, 101, 108, 108, 111] = [78, 66, 83, 87, 89, 51, 68, 80] ∧
    decodeFromString (encodeToString [104, 101, 108, 108, 111]) = none ∧
    decodeFromString (encodeToString []) = none := by
  refine ⟨by decide, by decide, by decide⟩

/-- C2 (amended): for byte strings of values below 256, the repository codec
round-trips exactly when the byte length is not a multiple of five; at
multiples of five (where the stripped encoding is a whole number of base-32
blocks, i.e. byte lengths 0, 5, 10, 15, 20, …) decoding fails instead,
because the padding-restoration step appends a full extra block of pads. -/
theorem c2_roundtrip_iff (b : Bytes) (hb : ∀ x ∈ b, x < 256) :
    decodeFromString (encodeToString b) = some b ↔ b.length % 5 ≠ 0 := by
  rw [decodeFromString_encodeToString b hb]
  by_cases h : b.length % 5 = 0
  · simp [h]
  · simp [h]

/-- C2 (witness): the amended round-trip equivalence evaluated at the
three-byte payload `foo`. -/
theorem c2_roundtrip_iff_witness :
    (∀ x ∈ [102, 111, 111], x < 256) ∧
    (decodeFromString (encodeToString [102, 111, 111]) = some [102, 111, 111] ↔
      ([102, 111, 111] : Bytes).length % 5 ≠ 0) :=
  ⟨by decide, c2_roundtrip_iff [102, 111, 111] (by decide)⟩

/-- C8: `NewAuthMagicLinkController` fails with `ErrSecretKeyTooShort` exactly
when the secret is shorter than 16 bytes; on success the controller holds the
SHA-256 digest of the secret (and the durations and store), and two secrets
with the same digest yield identical controllers — the raw secret is not
retained. -/
theorem c8_controller_construction (H : HashModel) (secretKey : Bytes)
    (cd sd : Int) (db : UserAuthDatabase) :
    (NewAuthMagicLinkController H secretKey cd sd db = .error .secretKeyTooShort ↔
      secretKey.length < 16) ∧
    (16 ≤ secretKey.length →
      NewAuthMagicLinkController H secretKey cd sd db =
        .ok { secretKeyHash := H.sha256 secretKey, challengeExpDuration := cd,
              sessionExpDuration := sd, db := db }) ∧
    (∀ k2 : Bytes, 16 ≤ secretKey.length → 16 ≤ k2.length →
      H.sha256 secretKey = H.sha256 k2 →
      NewAuthMagicLinkController H secretKey cd sd db =
        NewAuthMagicLinkController H k2 cd sd db) := by
  refine ⟨?_, ?_, ?_⟩
  · unfold NewAuthMagicLinkController
    by_cases h : secretKey.length < 16
    · simp [h]
    · simp [h]
  · intro h
    unfold NewAuthMagicLinkController
    rw [if_neg (by omega)]
  · intro k2 h1 h2 hsha
    unfold NewAuthMagicLinkController
    rw [if_neg (by omega), if_neg (by omega), hsha]

/-- C8 (witness): a 10-byte secret is rejected, a 16-byte secret is accepted,
and two distinct 16-byte secrets with equal digests give the same controller. -/
theorem c8_controller_construction_witness :
    (NewAuthMagicLinkController toyHash (List.replicate 10 0) 1 1 emptyDb =
        .error .secretKeyTooShort ↔ (List.replicate 10 0 : Bytes).length < 16) ∧
    (16 ≤ (List.replicate 16 7 : Bytes).length) ∧
    NewAuthMagicLinkController toyHash (List.replicate 16 7) 1 1 emptyDb =
      NewAuthMagicLinkController toyHash (List.replicate 16 9) 1 1 emptyDb :=
  ⟨(c8_controller_construction toyHash (List.replicate 10 0) 1 1 emptyDb).1,
    by decide,
    (c8_controller_construction toyHash (List.replicate 16 7) 1 1 emptyDb).2.2
      (List.replicate 16 9) (by decide) (by decide) rfl⟩

/-- C7: domain separation — every generated challenge token fails session
verification with `ErrInvalidSessionId` and every generated session token
fails challenge verification with `ErrInvalidChallenge`; moreover any string
whose first byte is not the class signature is rejected with the Invalid
error before any other parsing. -/
theorem c7_domain_separation :
    (∀ (H : HashModel) (mlc : AuthMagicLinkController) (salt : Bytes) (now now2 : Int)
      (email : Bytes),
      VerifySessionId H mlc now2 (GenerateChallenge H mlc salt now email) =
        .error .invalidSessionId) ∧
    (∀ (H : HashModel) (mlc : AuthMagicLinkController) (salt : Bytes) (now now2 : Int)
      (user : AuthUserRecord) (fresh : ULID),
      VerifyChallenge H mlc now2 fresh (GenerateSessionId H mlc salt now user) =
        .error .invalidChallenge) ∧
    (∀ (H : HashModel) (mlc : AuthMagicLinkController) (now : Int) (fresh : ULID)
      (c : Bytes), c.head? ≠ some 57 →
      VerifyChallenge H mlc now fresh c = .error .invalidChallenge) ∧
    (∀ (H : HashModel) (mlc : AuthMagicLinkController) (now : Int) (c : Bytes),
      c.head? ≠ some 83 → VerifySessionId H mlc now c = .error .invalidSessionId) := by
  refine ⟨?_, ?_, ?_, ?_⟩
  · intro H mlc salt now now2 email
    rw [GenerateChallenge_shape, VerifySessionId_cons, if_neg (by omega : ¬ (57 : Nat) = 83)]
  · intro H mlc salt now now2 user fresh
    rw [GenerateSessionId_shape, VerifyChallenge_cons, if_neg (by omega : ¬ (83 : Nat) = 57)]
  · intro H mlc now fresh c hc
    cases c with
    | nil => rfl
    | cons c0 body =>
      have h57 : ¬ c0 = 57 := fun e => hc (by simp [e])
      rw [VerifyChallenge_cons, if_neg h57]
  · intro H mlc now c hc
    cases c with
    | nil => rfl
    | cons c0 body =>
      have h83 : ¬ c0 = 83 := fun e => hc (by simp [e])
      rw [VerifySessionId_cons, if_neg h83]

/-- C7 (witness): the cross-verification rejections evaluated on concrete
tokens of the toy model, and the prefix rejection on a concrete string. -/
theorem c7_domain_separation_witness :
    VerifySessionId toyHash mlc0 1000
      (GenerateChallenge toyHash mlc0 [1, 2, 3, 4, 5, 6, 7, 8] 1000 [97, 64, 98, 46, 99, 100]) =
      .error .invalidSessionId ∧
    (([120, 121] : Bytes).head? ≠ some 57 ∧
      VerifyChallenge toyHash mlc0 1000 zeroULID [120, 121] = .error .invalidChallenge) :=
  ⟨c7_domain_separation.1 toyHash mlc0 [1, 2, 3, 4, 5, 6, 7, 8] 1000 1000
      [97, 64, 98, 46, 99, 100],
    by decide,
    c7_domain_separation.2.2.1 toyHash mlc0 1000 zeroULID [120, 121] (by decide)⟩

/-- C3: with a non-positive configured session-expiry duration, the generated
session token carries the expiry field `"0"` (the single byte 48), and
`VerifySessionId` at any time from one second past the Unix epoch onwards
rejects the token with `ErrExpiredSessionId` — the expiry comparison has no
special case for zero. -/
theorem c3_nonpositive_expiry_rejected (H : HashModel) (mlc : AuthMagicLinkController)
    (salt : Bytes) (now now2 : Int) (user : AuthUserRecord)
    (hsd : mlc.sessionExpDuration ≤ 0)
    (hsalt : salt.length = 8) (hsaltb : ∀ x ∈ salt, x < 256)
    (hid : user.ID.length = 16) (hidb : ∀ x ∈ user.ID, x < 256)
    (hnow : 1 ≤ now2) :
    (∃ f0 f1 f3, splitOnByte 45 (GenerateSessionId H mlc salt now user).tail =
      [f0, f1, [48], f3]) ∧
    VerifySessionId H mlc now2 (GenerateSessionId H mlc salt now user) =
      .error .expiredSessionId := by
  have hexp : (if mlc.sessionExpDuration > 0 then now + mlc.sessionExpDuration else 0) =
      (0 : Int) := if_neg (by omega)
  have h58 : salt.length % 5 ≠ 0 := by omega
  have hno0 : (45 : Nat) ∉ encodeToString salt := encodeToString_no45 salt
  have hno1 : (45 : Nat) ∉ ulidString user.ID := ulidString_not_mem45 user.ID
  have hno2 : (45 : Nat) ∉ itoa 0 := by decide
  have hno3 : (45 : Nat) ∉ encodeToString (H.hmacSha256 mlc.secretKeyHash
      (salt ++ 0 :: (user.ID ++ 0 :: itoa 0))) := encodeToString_no45 _
  have hshape := GenerateSessionId_shape H mlc salt now user
  rw [hexp] at hshape
  constructor
  · refine ⟨encodeToString salt, ulidString user.ID, encodeToString (H.hmacSha256
      mlc.secretKeyHash (salt ++ 0 :: (user.ID ++ 0 :: itoa 0))), ?_⟩
    rw [show ([48] : Bytes) = itoa 0 from rfl, hshape]
    show splitOnByte 45 (encodeToString salt ++ 45 :: (ulidString user.ID ++ 45 ::
      (itoa 0 ++ 45 :: encodeToString (H.hmacSha256 mlc.secretKeyHash
        (salt ++ 0 :: (user.ID ++ 0 :: itoa 0)))))) = _
    exact splitOnByte_token hno0 hno1 hno2 hno3
  · rw [hshape]
    rw [VerifySessionId_split H mlc now2 hno0 hno1 hno2 hno3]
    simp only [verifySessionIdFields, decodeFromString_roundtrip hsaltb h58,
      parseStrict_ulidString hid hidb, atoi_itoa]
    rw [if_pos (by omega : (0 : Int) < now2)]

/-- C3 (witness): the rejection evaluated on a concrete controller whose
session-expiry duration is zero, at current time 1. -/
theorem c3_nonpositive_expiry_rejected_witness :
    (mlc0.sessionExpDuration ≤ 0) ∧
    (∃ f0 f1 f3, splitOnByte 45
      (GenerateSessionId toyHash mlc0 [1, 2, 3, 4, 5, 6, 7, 8] 1000 rec1).tail =
      [f0, f1, [48], f3]) ∧
    VerifySessionId toyHash mlc0 1
      (GenerateSessionId toyHash mlc0 [1, 2, 3, 4, 5, 6, 7, 8] 1000 rec1) =
      .error .expiredSessionId :=
  ⟨by decide,
    (c3_nonpositive_expiry_rejected toyHash mlc0 [1, 2, 3, 4, 5, 6, 7, 8] 1000 1 rec1
      (by decide) (by decide) (by decide) (by decide) (by decide) (by decide)).1,
    (c3_nonpositive_expiry_rejected toyHash mlc0 [1, 2, 3, 4, 5, 6, 7, 8] 1000 1 rec1
      (by decide) (by decide) (by decide) (by decide) (by decide) (by decide)).2⟩

/-- C6 (counterexample): for the all-zero identifier the session token's
subject field is the ULID's 26-character Crockford rendering (26 times `0`,
byte 48), which differs from `encodeToString` of the 16 identifier bytes
(26 times `A`, byte 65); so the subject field is not the padding-stripped
base-32 encoding the claim asserts. -/
theorem c6_counterexample :
    (splitOnByte 45 (GenerateSessionId toyHash mlc0
      [1, 2, 3, 4, 5, 6, 7, 8] 1000 zrec).tail).get? 1 =
      some (List.replicate 26 48) ∧
    encodeToString zeroULID = List.replicate 26 65 ∧
    (List.replicate 26 48 : Bytes) ≠ List.replicate 26 65 := by
  refine ⟨by decide, by decide, by decide⟩

/-- C6 (amended): the subject field of a generated session token is the
identifier's 26-character Crockford base-32 ULID rendering `ulidString`
(not `encodeToString` of the 16 bytes), and `VerifySessionId` recovers the
identifier from that field with strict ULID parsing, which inverts the
rendering. -/
theorem c6_session_subject_field (H : HashModel) (mlc : AuthMagicLinkController)
    (salt : Bytes) (now : Int) (user : AuthUserRecord)
    (hid : user.ID.length = 16) (hidb : ∀ x ∈ user.ID, x < 256) (hnow : 0 ≤ now) :
    (∃ expStr macStr, splitOnByte 45 (GenerateSessionId H mlc salt now user).tail =
      [encodeToString salt, ulidString user.ID, expStr, macStr]) ∧
    parseStrict (ulidString user.ID) = some user.ID := by
  have hexpn : (0 : Int) ≤ (if mlc.sessionExpDuration > 0 then now + mlc.sessionExpDuration
      else 0) := by
    by_cases h : mlc.sessionExpDuration > 0
    · rw [if_pos h]; omega
    · rw [if_neg h]
  constructor
  · refine ⟨itoa (if mlc.sessionExpDuration > 0 then now + mlc.sessionExpDuration else 0),
      encodeToString (H.hmacSha256 mlc.secretKeyHash (salt ++ 0 :: (user.ID ++ 0 ::
        itoa (if mlc.sessionExpDuration > 0 then now + mlc.sessionExpDuration else 0)))), ?_⟩
    rw [GenerateSessionId_shape]
    show splitOnByte 45 (encodeToString salt ++ 45 :: (ulidString user.ID ++ 45 ::
      (itoa (if mlc.sessionExpDuration > 0 then now + mlc.sessionExpDuration else 0) ++
        45 :: encodeToString (H.hmacSha256 mlc.secretKeyHash (salt ++ 0 :: (user.ID ++ 0 ::
          itoa (if mlc.sessionExpDuration > 0 then now + mlc.sessionExpDuration
            else 0))))))) = _
    exact splitOnByte_token (encodeToString_no45 salt) (ulidString_not_mem45 user.ID)
      (itoa_not_mem_dash hexpn) (encodeToString_no45 _)
  · exact parseStrict_ulidString hid hidb

/-- C6 (witness): the amended subject-field description evaluated on a
concrete identifier. -/
theorem c6_session_subject_field_witness :
    (∃ expStr macStr, splitOnByte 45
      (GenerateSessionId toyHash mlc0 [1, 2, 3, 4, 5, 6, 7, 8] 1000 rec1).tail =
      [encodeToString [1, 2, 3, 4, 5, 6, 7, 8], ulidString rec1.ID, expStr, macStr]) ∧
    parseStrict (ulidString rec1.ID) = some rec1.ID :=
  c6_session_subject_field toyHash mlc0 [1, 2, 3, 4, 5, 6, 7, 8] 1000 rec1
    (by decide) (by decide) (by decide)

/-- C9: identifier laziness and stability — `GetID` on a zero identifier
installs the fresh `ulid.Make()` value (which is non-zero at any real
timestamp) and returns it; a second call returns the same value without
further change; on a non-zero identifier `GetID` and `GetKeyName` change
nothing; and neither verification operation alters an identifier: a
successful challenge verification returns a store record with only
`RecentLoginTime` rewritten or a brand-new record, and a successful session
verification returns a store record verbatim. -/
theorem c9_identifier_stability :
    (∀ (aur : AuthUserRecord) (fresh : ULID), IsZeroULID aur.ID = true →
      (aur.GetID fresh).1 = fresh ∧ (aur.GetID fresh).2 = { aur with ID := fresh }) ∧
    (∀ (aur : AuthUserRecord) (fresh : ULID), IsZeroULID aur.ID = false →
      aur.GetID fresh = (aur.ID, aur)) ∧
    (∀ (aur : AuthUserRecord) (fresh f2 : ULID), IsZeroULID aur.ID = true →
      IsZeroULID fresh = false →
      ((aur.GetID fresh).2.GetID f2) = (fresh, (aur.GetID fresh).2)) ∧
    (∀ ts ent : Nat, 0 < ts → ts < 2 ^ 48 → IsZeroULID (ulidMake ts ent) = false) ∧
    (∀ (aur : AuthUserRecord) (fresh : ULID), IsZeroULID aur.ID = false →
      (aur.GetKeyName fresh).2 = aur) ∧
    (∀ (H : HashModel) (mlc : AuthMagicLinkController) (now : Int) (fresh : ULID)
      (c : Bytes) (u : AuthUserRecord), VerifyChallenge H mlc now fresh c = .ok u →
      (∃ e r, mlc.db.getUserByEmail e = .ok r ∧ u = { r with RecentLoginTime := now }) ∨
      (∃ e, u = NewAuthUserRecord e fresh now)) ∧
    (∀ (H : HashModel) (mlc : AuthMagicLinkController) (now : Int) (c : Bytes)
      (u : AuthUserRecord), VerifySessionId H mlc now c = .ok u →
      ∃ id, mlc.db.getUserById id = .ok u) := by
  refine ⟨?_, ?_, ?_, ?_, ?_, ?_, ?_⟩
  · intro aur fresh hzero
    rw [AuthUserRecord.GetID, if_pos hzero]
    exact ⟨rfl, rfl⟩
  · intro aur fresh hnz
    rw [AuthUserRecord.GetID, if_neg (by simp [hnz])]
  · intro aur fresh f2 hzero hnz
    have hinner : (aur.GetID fresh).2 = { aur with ID := fresh } := by
      rw [AuthUserRecord.GetID, if_pos hzero]
    rw [hinner, AuthUserRecord.GetID, if_neg (by simp [hnz])]
  · intro ts ent hts hlt
    exact ulidMake_ne_zero ent hts hlt
  · intro aur fresh hnz
    rw [AuthUserRecord.GetKeyName, if_neg (by simp [hnz])]
  · intro H mlc now fresh c u h
    exact VerifyChallenge_ok_inv h
  · intro H mlc now c u h
    exact VerifySessionId_ok_inv h

/-- C9 (witness): the lazy-assignment and stability facts evaluated on a
concrete record with the zero identifier, a concrete fresh ULID, and a
concrete successful session verification against a one-user store. -/
theorem c9_identifier_stability_witness :
    (IsZeroULID zrec.ID = true) ∧
    (zrec.GetID (List.replicate 15 0 ++ [1])).1 = List.replicate 15 0 ++ [1] ∧
    (0 < 1700000000000 ∧ (1700000000000 : Nat) < 2 ^ 48 ∧
      IsZeroULID (ulidMake 1700000000000 42) = false) :=
  ⟨by decide,
    (c9_identifier_stability.1 zrec (List.replicate 15 0 ++ [1]) (by decide)).1,
    by norm_num,
    by norm_num,
    c9_identifier_stability.2.2.2.1 1700000000000 42 (by norm_num) (by norm_num)⟩

/-- C10: once the MAC check of a challenge token has succeeded, a store
failure other than `ErrUserNotFound` is propagated unchanged with no record;
a record is fabricated exactly on `ErrUserNotFound`; a found record is
returned with `RecentLoginTime` set to the current time; and every returned
record has `RecentLoginTime` equal to the current time. -/
theorem c10_store_error_propagation (H : HashModel) (mlc : AuthMagicLinkController)
    (now : Int) (fresh : ULID) (p0 p1 p2 p3 salt email : Bytes) (exp : Int) (hm : Bytes)
    (h0 : (45 : Nat) ∉ p0) (h1 : (45 : Nat) ∉ p1) (h2 : (45 : Nat) ∉ p2)
    (h3 : (45 : Nat) ∉ p3)
    (d0 : decodeFromString p0 = some salt) (d1 : decodeFromString p1 = some email)
    (d2 : atoi p2 = some exp) (hexp : ¬ exp < now)
    (d3 : decodeFromString p3 = some hm)
    (hmac : hm = makeHMAC H mlc (salt ++ 0 :: email ++ 0 :: itoa exp)) :
    (∀ e, mlc.db.getUserByEmail email = .error e → e ≠ .userNotFound →
      VerifyChallenge H mlc now fresh (57 :: (p0 ++ 45 :: (p1 ++ 45 :: (p2 ++ 45 :: p3)))) =
        .error e) ∧
    (mlc.db.getUserByEmail email = .error .userNotFound →
      VerifyChallenge H mlc now fresh (57 :: (p0 ++ 45 :: (p1 ++ 45 :: (p2 ++ 45 :: p3)))) =
        .ok (NewAuthUserRecord email fresh now)) ∧
    (∀ r, mlc.db.getUserByEmail email = .ok r →
      VerifyChallenge H mlc now fresh (57 :: (p0 ++ 45 :: (p1 ++ 45 :: (p2 ++ 45 :: p3)))) =
        .ok { r with RecentLoginTime := now }) ∧
    (∀ u, VerifyChallenge H mlc now fresh
        (57 :: (p0 ++ 45 :: (p1 ++ 45 :: (p2 ++ 45 :: p3)))) = .ok u →
      u.RecentLoginTime = now) := by
  have hred : VerifyChallenge H mlc now fresh
      (57 :: (p0 ++ 45 :: (p1 ++ 45 :: (p2 ++ 45 :: p3)))) =
    (match mlc.db.getUserByEmail email with
     | .ok r => .ok { r with RecentLoginTime := now }
     | .error .userNotFound => .ok (NewAuthUserRecord email fresh now)
     | .error e => .error e) := by
    rw [VerifyChallenge_split H mlc now fresh h0 h1 h2 h3]
    simp only [verifyChallengeFields, d0, d1, d2, d3]
    rw [if_neg hexp, if_pos hmac]
  refine ⟨?_, ?_, ?_, ?_⟩
  · intro e hdb hne
    rw [hred, hdb]
    cases e with
    | userNotFound => exact absurd rfl hne
    | userAlreadyExists => rfl
    | secretKeyTooShort => rfl
    | invalidChallenge => rfl
    | brokenChallenge => rfl
    | expiredChallenge => rfl
    | invalidSessionId => rfl
    | brokenSessionId => rfl
    | expiredSessionId => rfl
    | other n => rfl
  · intro hdb
    rw [hred, hdb]
  · intro r hdb
    rw [hred, hdb]
  · intro u hu
    rw [hred] at hu
    rcases hdb : mlc.db.getUserByEmail email with e | r
    · rw [hdb] at hu
      cases e <;> simp at hu <;> rw [← hu]
      rfl
    · rw [hdb] at hu
      simp at hu
      rw [← hu]

/-- C10 (witness): the propagation clauses evaluated on a concrete valid
token against a store that fails with a non-`ErrUserNotFound` error. -/
theorem c10_store_error_propagation_witness :
    decodeFromString (encodeToString [1, 2, 3, 4, 5, 6, 7, 8]) =
        some [1, 2, 3, 4, 5, 6, 7, 8] ∧
    mlc0.db.getUserByEmail [97, 64, 98, 46, 99, 100] = .error .userNotFound ∧
    VerifyChallenge toyHash mlc0 1000 zeroULID
      (57 :: (encodeToString [1, 2, 3, 4, 5, 6, 7, 8] ++ 45 ::
        (encodeToString [97, 64, 98, 46, 99, 100] ++ 45 :: (itoa 1000 ++ 45 ::
          encodeToString (makeHMAC toyHash mlc0 ([1, 2, 3, 4, 5, 6, 7, 8] ++ 0 ::
            [97, 64, 98, 46, 99, 100] ++ 0 :: itoa 1000)))))) =
      .ok (NewAuthUserRecord [97, 64, 98, 46, 99, 100] zeroULID 1000) :=
  ⟨by decide, by decide,
    (c10_store_error_propagation toyHash mlc0 1000 zeroULID
      (encodeToString [1, 2, 3, 4, 5, 6, 7, 8])
      (encodeToString [97, 64, 98, 46, 99, 100]) (itoa 1000)
      (encodeToString (makeHMAC toyHash mlc0 ([1, 2, 3, 4, 5, 6, 7, 8] ++ 0 ::
        [97, 64, 98, 46, 99, 100] ++ 0 :: itoa 1000)))
      [1, 2, 3, 4, 5, 6, 7, 8] [97, 64, 98, 46, 99, 100] 1000
      (makeHMAC toyHash mlc0 ([1, 2, 3, 4, 5, 6, 7, 8] ++ 0 ::
        [97, 64, 98, 46, 99, 100] ++ 0 :: itoa 1000))
      (encodeToString_no45 _) (encodeToString_no45 _)
      (itoa_not_mem_dash (by norm_num)) (encodeToString_no45 _)
      (by decide) (by decide) (by decide) (by norm_num) (by decide) rfl).2.1 (by decide)⟩

/-- C4 (counterexample): a challenge token whose expiry lies in the past and
whose MAC field `!` does not base-32 decode is rejected with
`ErrExpiredChallenge`, not `ErrInvalidChallenge` — the MAC field is decoded
only after the expiry comparison, contradicting the claimed decode order. -/
theorem c4_counterexample :
    decodeFromString [33] = none ∧
    VerifyChallenge toyHash mlc0 1000 zeroULID
      (57 :: (encodeToString [1, 2, 3, 4, 5, 6, 7, 8] ++ 45 ::
        (encodeToString [97, 64, 98, 46, 99, 100] ++ 45 :: (itoa 0 ++ 45 :: [33])))) =
      .error .expiredChallenge := by
  refine ⟨by decide, by decide⟩

/-- C4 (amended): in both verifies the salt and subject fields are decoded
and the expiry parsed before the time comparison, but the MAC field is
decoded only afterwards; hence a token with past expiry and an undecodable
MAC field yields the Expired error, while with a non-past expiry the same
token yields the Invalid error. -/
theorem c4_mac_decoded_after_expiry (H : HashModel) (mlc : AuthMagicLinkController)
    (now : Int) (fresh : ULID) (p0 p1 p2 p3 salt : Bytes) (exp : Int)
    (h0 : (45 : Nat) ∉ p0) (h1 : (45 : Nat) ∉ p1) (h2 : (45 : Nat) ∉ p2)
    (h3 : (45 : Nat) ∉ p3)
    (d0 : decodeFromString p0 = some salt) (d2 : atoi p2 = some exp)
    (d3 : decodeFromString p3 = none) :
    (∀ email, decodeFromString p1 = some email →
      (exp < now →
        VerifyChallenge H mlc now fresh
          (57 :: (p0 ++ 45 :: (p1 ++ 45 :: (p2 ++ 45 :: p3)))) =
          .error .expiredChallenge) ∧
      (¬ exp < now →
        VerifyChallenge H mlc now fresh
          (57 :: (p0 ++ 45 :: (p1 ++ 45 :: (p2 ++ 45 :: p3)))) =
          .error .invalidChallenge)) ∧
    (∀ userId, parseStrict p1 = some userId →
      (exp < now →
        VerifySessionId H mlc now (83 :: (p0 ++ 45 :: (p1 ++ 45 :: (p2 ++ 45 :: p3)))) =
          .error .expiredSessionId) ∧
      (¬ exp < now →
        VerifySessionId H mlc now (83 :: (p0 ++ 45 :: (p1 ++ 45 :: (p2 ++ 45 :: p3)))) =
          .error .invalidSessionId)) := by
  constructor
  · intro email d1
    rw [VerifyChallenge_split H mlc now fresh h0 h1 h2 h3]
    constructor
    · intro hlt
      simp only [verifyChallengeFields, d0, d1, d2]
      rw [if_pos hlt]
    · intro hlt
      simp only [verifyChallengeFields, d0, d1, d2, d3]
      rw [if_neg hlt]
  · intro userId d1
    rw [VerifySessionId_split H mlc now h0 h1 h2 h3]
    constructor
    · intro hlt
      simp only [verifySessionIdFields, d0, d1, d2]
      rw [if_pos hlt]
    · intro hlt
      simp only [verifySessionIdFields, d0, d1, d2, d3]
      rw [if_neg hlt]

/-- C4 (witness): the amended ordering evaluated on a concrete token with
undecodable MAC field, at a past and at a future expiry time. -/
theorem c4_mac_decoded_after_expiry_witness :
    decodeFromString [33] = none ∧
    ((0 : Int) < 1000 →
      VerifyChallenge toyHash mlc0 1000 zeroULID
        (57 :: (encodeToString [1, 2, 3, 4, 5, 6, 7, 8] ++ 45 ::
          (encodeToString [97, 64, 98, 46, 99, 100] ++ 45 :: (itoa 0 ++ 45 :: [33])))) =
        .error .expiredChallenge) :=
  ⟨by decide,
    fun hlt => ((c4_mac_decoded_after_expiry toyHash mlc0 1000 zeroULID
      (encodeToString [1, 2, 3, 4, 5, 6, 7, 8])
      (encodeToString [97, 64, 98, 46, 99, 100]) (itoa 0) [33]
      [1, 2, 3, 4, 5, 6, 7, 8] 0
      (encodeToString_no45 _) (encodeToString_no45 _)
      (itoa_not_mem_dash (by norm_num)) (by decide)
      (by decide) (by decide) (by decide)).1
      [97, 64, 98, 46, 99, 100] (by decide)).1 hlt⟩

/-- C1 (counterexample): for the perfectly ordinary e-mail `a@b.c` (five
bytes, already normalized) the challenge round trip fails with
`ErrInvalidChallenge` instead of succeeding: the e-mail field's stripped
encoding is a full base-32 block, and `decodeFromString` cannot decode it
after re-appending a full block of pads. -/
theorem c1_counterexample :
    NormalizeEmail [97, 64, 98, 46, 99] = [97, 64, 98, 46, 99] ∧
    VerifyChallenge toyHash mlc0 1000 zeroULID
      (GenerateChallenge toyHash mlc0 [1, 2, 3, 4, 5, 6, 7, 8] 1000 [97, 64, 98, 46, 99]) =
      .error .invalidChallenge := by
  refine ⟨by decide, by decide⟩

/-- C1 (amended): the challenge round trip succeeds, returning a record whose
`Email` is `normalize(E)`, whenever the normalized e-mail's byte length is
not a multiple of five (the codec's round-trip domain), the 8-byte salt and
the e-mail are byte strings, the HMAC value is a byte string of length not a
multiple of five (true of real 32-byte HMAC-SHA256), the expiry duration is
non-negative, and the store either knows the e-mail under its normalized
form or reports `ErrUserNotFound`.  For normalized lengths 0, 5, 10, … the
round trip instead fails (see the counterexample). -/
theorem c1_challenge_roundtrip (H : HashModel) (mlc : AuthMagicLinkController)
    (salt email : Bytes) (now : Int) (fresh : ULID)
    (hsalt : salt.length = 8) (hsaltb : ∀ x ∈ salt, x < 256)
    (hemail : ∀ x ∈ email, x < 256)
    (h5 : (NormalizeEmail email).length % 5 ≠ 0)
    (hnow : 0 ≤ now) (hdur : 0 ≤ mlc.challengeExpDuration)
    (hmac5 : (H.hmacSha256 mlc.secretKeyHash (salt ++ 0 :: (NormalizeEmail email ++ 0 ::
      itoa (now + mlc.challengeExpDuration)))).length % 5 ≠ 0)
    (hmacb : ∀ x ∈ H.hmacSha256 mlc.secretKeyHash (salt ++ 0 :: (NormalizeEmail email ++ 0 ::
      itoa (now + mlc.challengeExpDuration))), x < 256)
    (hdbok : ∀ r, mlc.db.getUserByEmail (NormalizeEmail email) = .ok r →
      r.Email = NormalizeEmail email)
    (hdberr : ∀ e, mlc.db.getUserByEmail (NormalizeEmail email) = .error e →
      e = .userNotFound) :
    ∃ u, VerifyChallenge H mlc now fresh (GenerateChallenge H mlc salt now email) = .ok u ∧
      u.Email = NormalizeEmail email := by
  have hno0 : (45 : Nat) ∉ encodeToString salt := encodeToString_no45 salt
  have hno1 : (45 : Nat) ∉ encodeToString (NormalizeEmail email) := encodeToString_no45 _
  have hno2 : (45 : Nat) ∉ itoa (now + mlc.challengeExpDuration) :=
    itoa_not_mem_dash (by omega)
  have hno3 : (45 : Nat) ∉ encodeToString (H.hmacSha256 mlc.secretKeyHash
      (salt ++ 0 :: (NormalizeEmail email ++ 0 :: itoa (now + mlc.challengeExpDuration)))) :=
    encodeToString_no45 _
  have hred : VerifyChallenge H mlc now fresh (GenerateChallenge H mlc salt now email) =
      (match mlc.db.getUserByEmail (NormalizeEmail email) with
       | .ok r => .ok { r with RecentLoginTime := now }
       | .error .userNotFound => .ok (NewAuthUserRecord (NormalizeEmail email) fresh now)
       | .error e => .error e) := by
    rw [GenerateChallenge_shape, VerifyChallenge_split H mlc now fresh hno0 hno1 hno2 hno3]
    simp only [verifyChallengeFields,
      decodeFromString_roundtrip hsaltb (by omega : salt.length % 5 ≠ 0),
      decodeFromString_roundtrip (NormalizeEmail_lt256 hemail) h5,
      decodeFromString_roundtrip hmacb hmac5, atoi_itoa]
    rw [if_neg (by omega : ¬ now + mlc.challengeExpDuration < now)]
    rw [if_pos]
    simp [makeHMAC, List.cons_append]
  rcases hdb : mlc.db.getUserByEmail (NormalizeEmail email) with e | r
  · have he := hdberr e hdb
    subst he
    refine ⟨NewAuthUserRecord (NormalizeEmail email) fresh now, ?_, ?_⟩
    · rw [hred, hdb]
    · show NormalizeEmail (NormalizeEmail email) = NormalizeEmail email
      exact NormalizeEmail_idem email
  · refine ⟨{ r with RecentLoginTime := now }, ?_, ?_⟩
    · rw [hred, hdb]
    · show r.Email = NormalizeEmail email
      exact hdbok r hdb

/-- C1 (witness): the amended round trip evaluated on the six-byte e-mail
`a@b.cd` over the toy model with an empty store. -/
theorem c1_challenge_roundtrip_witness :
    ((NormalizeEmail [97, 64, 98, 46, 99, 100]).length % 5 ≠ 0) ∧
    ∃ u, VerifyChallenge toyHash mlc0 1000 zeroULID
        (GenerateChallenge toyHash mlc0 [1, 2, 3, 4, 5, 6, 7, 8] 1000
          [97, 64, 98, 46, 99, 100]) = .ok u ∧
      u.Email = NormalizeEmail [97, 64, 98, 46, 99, 100] :=
  ⟨by decide,
    c1_challenge_roundtrip toyHash mlc0 [1, 2, 3, 4, 5, 6, 7, 8] [97, 64, 98, 46, 99, 100]
      1000 zeroULID (by decide) (by decide) (by decide) (by decide) (by norm_num)
      (by decide) (by decide) (by decide)
      (fun r h => by simp [mlc0, emptyDb] at h)
      (fun e h => by
        simp only [mlc0, emptyDb] at h
        injection h with h2
        exact h2.symm)⟩

/-- C5 (counterexample): a single-character tamper that verifies
successfully.  `c5tok` is a valid challenge token whose last character is
`A` (65) and lies inside the MAC field (the split fields of the original
and tampered bodies differ exactly in field 3); replacing it by `B` (66)
still verifies and returns the very same record, because Go's base-32
decoder ignores the trailing bits of a final partial group.  This refutes
the claim that any single-character change to the MAC field makes
verification fail. -/
theorem c5_counterexample :
    c5tok = c5pre ++ 65 :: [] ∧
    VerifyChallenge toyHash mlc0 1000 zeroULID (c5pre ++ 65 :: []) = .ok c5rec ∧
    (65 : Nat) ≠ 66 ∧
    VerifyChallenge toyHash mlc0 1000 zeroULID (c5pre ++ 66 :: []) = .ok c5rec ∧
    (splitOnByte 45 c5tok.tail).getD 3 [] ≠
      (splitOnByte 45 (c5pre ++ 66 :: []).tail).getD 3 [] := by
  refine ⟨by decide, by decide, by decide, by decide, by decide⟩

/-- C5 (amended): replacing a single character of a valid token (challenge
or session) by a different character, anywhere in the token, either fails
with the Invalid*, Expired* or Broken* error of the respective verifier, or
still succeeds with exactly the same record — assuming the keyed MAC is
injective; a successful verification never returns a different record, but
the claimed outcome (always Broken*, never success) is refuted by
`c5_counterexample`. -/
theorem c5_single_char_tamper :
    (∀ (H : HashModel) (mlc : AuthMagicLinkController) (now : Int) (fresh : ULID)
        (pre suf : Bytes) (a b : Nat) (u0 : AuthUserRecord),
        Function.Injective (H.hmacSha256 mlc.secretKeyHash) →
        VerifyChallenge H mlc now fresh (pre ++ a :: suf) = .ok u0 → a ≠ b →
        VerifyChallenge H mlc now fresh (pre ++ b :: suf) = .ok u0 ∨
        VerifyChallenge H mlc now fresh (pre ++ b :: suf) = .error .invalidChallenge ∨
        VerifyChallenge H mlc now fresh (pre ++ b :: suf) = .error .expiredChallenge ∨
        VerifyChallenge H mlc now fresh (pre ++ b :: suf) = .error .brokenChallenge) ∧
    (∀ (H : HashModel) (mlc : AuthMagicLinkController) (now : Int)
        (pre suf : Bytes) (a b : Nat) (u0 : AuthUserRecord),
        Function.Injective (H.hmacSha256 mlc.secretKeyHash) →
        VerifySessionId H mlc now (pre ++ a :: suf) = .ok u0 → a ≠ b →
        VerifySessionId H mlc now (pre ++ b :: suf) = .ok u0 ∨
        VerifySessionId H mlc now (pre ++ b :: suf) = .error .invalidSessionId ∨
        VerifySessionId H mlc now (pre ++ b :: suf) = .error .expiredSessionId ∨
        VerifySessionId H mlc now (pre ++ b :: suf) = .error .brokenSessionId) :=
  ⟨fun H mlc now fresh pre suf a b u0 hinj hok hne =>
      challenge_tamper H mlc now fresh pre suf a b u0 hinj hok hne,
    fun H mlc now pre suf a b u0 hinj hok hne =>
      session_tamper H mlc now pre suf a b u0 hinj hok hne⟩

/-- C5 (witness): the amended tamper theorem applied to the concrete valid
token `c5pre ++ [65]` with its last character replaced by 66, over the toy
model whose keyed MAC is injective. -/
theorem c5_single_char_tamper_witness :
    Function.Injective (toyHash.hmacSha256 mlc0.secretKeyHash) ∧
    VerifyChallenge toyHash mlc0 1000 zeroULID (c5pre ++ 65 :: []) = .ok c5rec ∧
    (65 : Nat) ≠ 66 ∧
    (VerifyChallenge toyHash mlc0 1000 zeroULID (c5pre ++ 66 :: []) = .ok c5rec ∨
     VerifyChallenge toyHash mlc0 1000 zeroULID (c5pre ++ 66 :: []) =
       .error .invalidChallenge ∨
     VerifyChallenge toyHash mlc0 1000 zeroULID (c5pre ++ 66 :: []) =
       .error .expiredChallenge ∨
     VerifyChallenge toyHash mlc0 1000 zeroULID (c5pre ++ 66 :: []) =
       .error .brokenChallenge) :=
  ⟨fun x y h => List.append_cancel_left h, by decide, by decide,
    c5_single_char_tamper.1 toyHash mlc0 1000 zeroULID c5pre [] 65 66 c5rec
      (fun x y h => List.append_cancel_left h) (by decide) (by decide)⟩

end GoMagicLink
